import Mathlib

/-!
Verification development for the `prop-logic` repository (a natural-deduction
proof-search engine for propositional logic written in Rust).

The development shallowly embeds the core of the repository:

* `src/logic.rs` — the `Logic` formula type, partial evaluation
  (`Logic::eval_part`), the classical-validity check (`Logic::check_all`),
  the TeX renderer (`impl TeX for Logic`) and the unicode console renderer
  (`impl Display for Logic`, which post-processes the TeX output with five
  string replacements);
* `src/solver.rs` — the proof-search engine (`Problem` / `Inference`), and
  the two proof-tree printers (`Inference::print`, `Inference::print_tex`);
* `src/exec.rs` — the driver that parses, runs `check_all`, then `solve`.

Modelling decisions, stated once here:

* Rust `HashMap<&Logic, Rc<RefCell<usize>>>` assumption contexts are embedded
  as association lists in insertion order, with `HashMap::insert`'s
  overwrite-the-existing-key semantics.  The iteration order of a Rust
  `HashMap` is unspecified (randomized per process); the solver embedding is
  therefore parameterized by a reordering function `ord` that is applied to
  the context exactly where the source iterates `self.axioms.clone()`.
  `ord := id` (insertion order) is used as the canonical resolution, and
  `ord := List.reverse` as a second legitimate resolution when order
  dependence itself is at issue.
* `Rc<RefCell<usize>>` discharge markers are embedded as `Nat` identifiers
  allocated from a counter threaded through the search; the mutable cell
  contents live in an explicit store `Nat → Nat` at render time.
  `Rc::weak_count(&marker) > 0` (the liveness test of the printers) is the
  number of `Axiom` leaves of the rendered tree whose weak reference targets
  the marker, which is exactly what the count is at render time.
* The `history` field of `Problem` is write-only in the source (pushed, never
  read), and is omitted.
* Recursion in the solver is made total with an explicit fuel parameter that
  every embedded function decrements on entry; `none` means the fuel ran out.
  A run of the Rust program that terminates is reproduced by any
  sufficiently large fuel, and a run that diverges is exactly `= none` for
  every fuel.
-/

namespace PropLogic

/-- The formula type, `Logic` of `src/logic.rs` (`Base`/`Cont`/`Not`/`And`/
`Or`/`To`). -/
inductive Logic where
  | Base : Char → Logic
  | Cont : Logic
  | Not : Logic → Logic
  | And : Logic → Logic → Logic
  | Or : Logic → Logic → Logic
  | To : Logic → Logic → Logic
deriving DecidableEq, Repr

namespace Logic

/-- A partial valuation, the embedding of `&HashMap<char, bool>` as the map's
`get` function (the only operation `eval_part` performs on it). -/
abbrev Val := Char → Option Bool

/-- `Logic::eval_part` of `src/logic.rs`, case for case.  `none` means
"evaluates to true under any completion", `some Cont` means "false",
`some g` a residual simplified formula. -/
def eval_part : Logic → Val → Option Logic
  | .Base c, m =>
    match m c with
    | some b => if b then none else some .Cont
    | none => some (.Base c)
  | .Cont, _ => some .Cont
  | .Not g, m =>
    match eval_part g m with
    | some .Cont => none
    | some g' => some (.Not g')
    | none => some .Cont
  | .And l r, m =>
    match eval_part l m, eval_part r m with
    | some .Cont, _ => some .Cont
    | _, some .Cont => some .Cont
    | none, right => right
    | left, none => left
    | some l', some r' => some (.And l' r')
  | .Or l r, m =>
    match eval_part l m, eval_part r m with
    | none, _ => none
    | _, none => none
    | some .Cont, right => right
    | left, some .Cont => left
    | some l', some r' => some (.Or l' r')
  | .To l r, m =>
    match eval_part l m, eval_part r m with
    | some .Cont, _ => none
    | _, none => none
    | none, right => right
    | some l', some .Cont => some (.Not l')
    | some l', some r' => some (.To l' r')

/-- `Logic::base_set` of `src/logic.rs` (the set of atom labels), as a
`Finset`. -/
def baseS : Logic → Finset Char
  | .Base c => {c}
  | .Cont => ∅
  | .Not g => baseS g
  | .And l r => baseS l ∪ baseS r
  | .Or l r => baseS l ∪ baseS r
  | .To l r => baseS l ∪ baseS r

/-- The atom labels of a formula in leftmost-first order (possibly with
duplicates).  `base_set().into_iter().next()` in the source picks an
unspecified element of the atom set; the head of this list is the canonical
pick used by the embedding of `check_all`. -/
def baseL : Logic → List Char
  | .Base c => [c]
  | .Cont => []
  | .Not g => baseL g
  | .And l r => baseL l ++ baseL r
  | .Or l r => baseL l ++ baseL r
  | .To l r => baseL l ++ baseL r

/-- The one-step combiner of the `Not` arm of `eval_part`. -/
def notC : Option Logic → Option Logic
  | some .Cont => none
  | some g' => some (.Not g')
  | none => some .Cont

/-- The one-step combiner of the `And` arm of `eval_part`. -/
def andC : Option Logic → Option Logic → Option Logic
  | some .Cont, _ => some .Cont
  | _, some .Cont => some .Cont
  | none, right => right
  | left, none => left
  | some l', some r' => some (.And l' r')

/-- The one-step combiner of the `Or` arm of `eval_part`. -/
def orC : Option Logic → Option Logic → Option Logic
  | none, _ => none
  | _, none => none
  | some .Cont, right => right
  | left, some .Cont => left
  | some l', some r' => some (.Or l' r')

/-- The one-step combiner of the `To` arm of `eval_part`. -/
def toC : Option Logic → Option Logic → Option Logic
  | some .Cont, _ => none
  | _, none => none
  | none, right => right
  | some l', some .Cont => some (.Not l')
  | some l', some r' => some (.To l' r')

theorem eval_part_not (g : Logic) (m : Val) :
    eval_part (.Not g) m = notC (eval_part g m) := rfl

theorem eval_part_and (l r : Logic) (m : Val) :
    eval_part (.And l r) m = andC (eval_part l m) (eval_part r m) := rfl

theorem eval_part_or (l r : Logic) (m : Val) :
    eval_part (.Or l r) m = orC (eval_part l m) (eval_part r m) := rfl

theorem eval_part_to (l r : Logic) (m : Val) :
    eval_part (.To l r) m = toC (eval_part l m) (eval_part r m) := rfl

/-- Continuing a partial evaluation: `none` stays `none` (true is true under
any further assignment), a residual is evaluated further. -/
def seqv (m : Val) : Option Logic → Option Logic
  | none => none
  | some g => eval_part g m

/-- Left-biased union of two partial valuations. -/
def munion (m1 m2 : Val) : Val :=
  fun c => match m1 c with
  | some b => some b
  | none => m2 c

theorem andC_none_left (x : Option Logic) : andC none x = x := by
  rcases x with _ | y
  · rfl
  · cases y <;> rfl

theorem andC_none_right (x : Option Logic) : andC x none = x := by
  rcases x with _ | y
  · rfl
  · cases y <;> rfl

theorem eval_part_cont (m : Val) : eval_part .Cont m = some .Cont := rfl

theorem andC_cont_left (x : Option Logic) : andC (some .Cont) x = some .Cont := by
  rcases x with _ | y
  · rfl
  · cases y <;> rfl

theorem andC_cont_right (x : Option Logic) : andC x (some .Cont) = some .Cont := by
  rcases x with _ | y
  · rfl
  · cases y <;> rfl

theorem orC_none_left (x : Option Logic) : orC none x = none := by
  rcases x with _ | y
  · rfl
  · cases y <;> rfl

theorem orC_none_right (x : Option Logic) : orC x none = none := by
  rcases x with _ | y
  · rfl
  · cases y <;> rfl

theorem orC_cont_left (x : Option Logic) : orC (some .Cont) x = x := by
  rcases x with _ | y
  · rfl
  · cases y <;> rfl

theorem orC_cont_right (x : Option Logic) : orC x (some .Cont) = x := by
  rcases x with _ | y
  · rfl
  · cases y <;> rfl

theorem toC_cont_left (x : Option Logic) : toC (some .Cont) x = none := by
  rcases x with _ | y
  · rfl
  · cases y <;> rfl

theorem toC_none_right (x : Option Logic) : toC x none = none := by
  rcases x with _ | y
  · rfl
  · cases y <;> rfl

theorem toC_none_left (x : Option Logic) : toC none x = x := by
  rcases x with _ | y
  · rfl
  · cases y <;> rfl

theorem toC_cont_right (x : Option Logic) : toC x (some .Cont) = notC x := by
  rcases x with _ | y
  · rfl
  · cases y <;> rfl

theorem notC_seqv (m : Val) (a : Option Logic) :
    notC (seqv m a) = seqv m (notC a) := by
  rcases a with _ | a'
  · rfl
  · cases a' <;> rfl

theorem andC_seqv (m : Val) (a b : Option Logic) :
    andC (seqv m a) (seqv m b) = seqv m (andC a b) := by
  rcases a with _ | a'
  · show andC none (seqv m b) = seqv m (andC none b)
    rw [andC_none_left, andC_none_left]
  · rcases b with _ | b'
    · show andC (seqv m (some a')) none = seqv m (andC (some a') none)
      rw [andC_none_right, andC_none_right]
    · cases a' <;> cases b' <;>
        first
          | rfl
          | exact andC_cont_right _
          | exact andC_cont_left _

theorem orC_seqv (m : Val) (a b : Option Logic) :
    orC (seqv m a) (seqv m b) = seqv m (orC a b) := by
  rcases a with _ | a'
  · show orC none (seqv m b) = seqv m (orC none b)
    rw [orC_none_left, orC_none_left]
    rfl
  · rcases b with _ | b'
    · show orC (seqv m (some a')) none = seqv m (orC (some a') none)
      rw [orC_none_right, orC_none_right]
      rfl
    · cases a' <;> cases b' <;>
        first
          | rfl
          | exact orC_cont_right _
          | exact orC_cont_left _

theorem toC_seqv (m : Val) (a b : Option Logic) :
    toC (seqv m a) (seqv m b) = seqv m (toC a b) := by
  rcases a with _ | a'
  · show toC none (seqv m b) = seqv m (toC none b)
    rw [toC_none_left, toC_none_left]
  · rcases b with _ | b'
    · show toC (seqv m (some a')) none = seqv m (toC (some a') none)
      rw [toC_none_right, toC_none_right]
      rfl
    · cases a' <;> cases b' <;>
        first
          | rfl
          | exact toC_cont_right _
          | exact toC_cont_left _

/-- Composing partial evaluations: evaluating under the union of two
valuations is evaluating under the first and then evaluating the residual
under the second. -/
theorem eval_part_munion (f : Logic) (m1 m2 : Val) :
    eval_part f (munion m1 m2) = seqv m2 (eval_part f m1) := by
  induction f with
  | Base c =>
    rcases h : m1 c with _ | b
    · simp only [eval_part, munion, h, seqv]
    · cases b <;> simp [eval_part, munion, h, seqv]
  | Cont => rfl
  | Not g ih => rw [eval_part_not, eval_part_not, ih, notC_seqv]
  | And l r ihl ihr => rw [eval_part_and, eval_part_and, ihl, ihr, andC_seqv]
  | Or l r ihl ihr => rw [eval_part_or, eval_part_or, ihl, ihr, orC_seqv]
  | To l r ihl ihr => rw [eval_part_to, eval_part_to, ihl, ihr, toC_seqv]

theorem mem_baseL_iff_mem_baseS (f : Logic) (c : Char) :
    c ∈ baseL f ↔ c ∈ baseS f := by
  induction f with
  | Base d => simp [baseL, baseS]
  | Cont => simp [baseL, baseS]
  | Not g ih => simpa [baseL, baseS] using ih
  | And l r ihl ihr => simp [baseL, baseS, ihl, ihr]
  | Or l r ihl ihr => simp [baseL, baseS, ihl, ihr]
  | To l r ihl ihr => simp [baseL, baseS, ihl, ihr]

theorem notC_some {g : Logic} (h : g ≠ .Cont) : notC (some g) = some (.Not g) := by
  cases g <;> first | exact absurd rfl h | rfl

theorem andC_some_some {l r : Logic} (hl : l ≠ .Cont) (hr : r ≠ .Cont) :
    andC (some l) (some r) = some (.And l r) := by
  cases l <;> cases r <;>
    first | exact absurd rfl hl | exact absurd rfl hr | rfl

theorem orC_some_some {l r : Logic} (hl : l ≠ .Cont) (hr : r ≠ .Cont) :
    orC (some l) (some r) = some (.Or l r) := by
  cases l <;> cases r <;>
    first | exact absurd rfl hl | exact absurd rfl hr | rfl

theorem toC_some_some {l r : Logic} (hl : l ≠ .Cont) (hr : r ≠ .Cont) :
    toC (some l) (some r) = some (.To l r) := by
  cases l <;> cases r <;>
    first | exact absurd rfl hl | exact absurd rfl hr | rfl

theorem toC_some_cont {l : Logic} (hl : l ≠ .Cont) :
    toC (some l) (some .Cont) = some (.Not l) := by
  cases l <;> first | exact absurd rfl hl | rfl

/-- Structure of residuals: a residual's atoms are unassigned atoms of the
original formula, and a residual other than `Cont` still contains an atom. -/
theorem eval_part_residual (f : Logic) (m : Val) :
    ∀ g, eval_part f m = some g →
      (∀ c, c ∈ baseS g → c ∈ baseS f ∧ m c = none) ∧
      (g = .Cont ∨ (baseS g).Nonempty) := by
  induction f with
  | Base d =>
    intro g h
    rcases hm : m d with _ | b
    · simp only [eval_part, hm, Option.some.injEq] at h
      subst h
      refine ⟨fun c hc => ?_, Or.inr ⟨d, by simp [baseS]⟩⟩
      simp only [baseS, Finset.mem_singleton] at hc
      subst hc
      exact ⟨by simp [baseS], hm⟩
    · cases b
      · simp only [eval_part, hm, Bool.false_eq_true, reduceIte,
          Option.some.injEq] at h
        subst h
        exact ⟨fun c hc => by simp [baseS] at hc, Or.inl rfl⟩
      · simp only [eval_part, hm, reduceIte] at h
        exact absurd h (by simp)
  | Cont =>
    intro g h
    simp only [eval_part, Option.some.injEq] at h
    subst h
    exact ⟨fun c hc => by simp [baseS] at hc, Or.inl rfl⟩
  | Not f' ih =>
    intro g h
    rw [eval_part_not] at h
    rcases hf : eval_part f' m with _ | g'
    · rw [hf] at h
      simp only [notC, Option.some.injEq] at h
      subst h
      exact ⟨fun c hc => by simp [baseS] at hc, Or.inl rfl⟩
    · rw [hf] at h
      by_cases hg' : g' = .Cont
      · subst hg'
        simp [notC] at h
      · rw [notC_some hg'] at h
        obtain rfl : Logic.Not g' = g := by exact Option.some.inj h
        obtain ⟨ih1, ih2⟩ := ih g' hf
        refine ⟨fun c hc => ?_, ?_⟩
        · simp only [baseS] at hc ⊢
          exact ih1 c hc
        · rcases ih2 with h2 | h2
          · exact absurd h2 hg'
          · exact Or.inr (by simpa [baseS] using h2)
  | And l r ihl ihr =>
    intro g h
    rw [eval_part_and] at h
    rcases hl : eval_part l m with _ | l' <;> rcases hr : eval_part r m with _ | r' <;>
      rw [hl, hr] at h
    · rw [andC_none_left] at h
      exact absurd h (by simp)
    · rw [andC_none_left] at h
      obtain rfl := Option.some.inj h
      obtain ⟨ih1, ih2⟩ := ihr _ hr
      exact ⟨fun c hc => ⟨by simp [baseS, (ih1 c hc).1], (ih1 c hc).2⟩, ih2⟩
    · rw [andC_none_right] at h
      obtain rfl := Option.some.inj h
      obtain ⟨ih1, ih2⟩ := ihl _ hl
      exact ⟨fun c hc => ⟨by simp [baseS, (ih1 c hc).1], (ih1 c hc).2⟩, ih2⟩
    · by_cases hlc : l' = .Cont
      · subst hlc
        rw [andC_cont_left] at h
        obtain rfl : Logic.Cont = g := Option.some.inj h
        exact ⟨fun c hc => by simp [baseS] at hc, Or.inl rfl⟩
      · by_cases hrc : r' = .Cont
        · subst hrc
          rw [andC_cont_right] at h
          obtain rfl : Logic.Cont = g := Option.some.inj h
          exact ⟨fun c hc => by simp [baseS] at hc, Or.inl rfl⟩
        · rw [andC_some_some hlc hrc] at h
          obtain rfl : Logic.And l' r' = g := Option.some.inj h
          obtain ⟨ihl1, ihl2⟩ := ihl l' hl
          obtain ⟨ihr1, ihr2⟩ := ihr r' hr
          refine ⟨fun c hc => ?_, ?_⟩
          · simp only [baseS, Finset.mem_union] at hc ⊢
            rcases hc with hc | hc
            · exact ⟨Or.inl (ihl1 c hc).1, (ihl1 c hc).2⟩
            · exact ⟨Or.inr (ihr1 c hc).1, (ihr1 c hc).2⟩
          · rcases ihl2 with h2 | h2
            · exact absurd h2 hlc
            · obtain ⟨c, hc⟩ := h2
              exact Or.inr ⟨c, by simp [baseS, hc]⟩
  | Or l r ihl ihr =>
    intro g h
    rw [eval_part_or] at h
    rcases hl : eval_part l m with _ | l' <;> rcases hr : eval_part r m with _ | r' <;>
      rw [hl, hr] at h
    · rw [orC_none_left] at h
      exact absurd h (by simp)
    · rw [orC_none_left] at h
      exact absurd h (by simp)
    · rw [orC_none_right] at h
      exact absurd h (by simp)
    · by_cases hlc : l' = .Cont
      · subst hlc
        rw [orC_cont_left] at h
        obtain rfl := Option.some.inj h
        obtain ⟨ih1, ih2⟩ := ihr _ hr
        exact ⟨fun c hc => ⟨by simp [baseS, (ih1 c hc).1], (ih1 c hc).2⟩, ih2⟩
      · by_cases hrc : r' = .Cont
        · subst hrc
          rw [orC_cont_right] at h
          obtain rfl := Option.some.inj h
          obtain ⟨ih1, ih2⟩ := ihl _ hl
          exact ⟨fun c hc => ⟨by simp [baseS, (ih1 c hc).1], (ih1 c hc).2⟩, ih2⟩
        · rw [orC_some_some hlc hrc] at h
          obtain rfl : Logic.Or l' r' = g := Option.some.inj h
          obtain ⟨ihl1, ihl2⟩ := ihl l' hl
          obtain ⟨ihr1, ihr2⟩ := ihr r' hr
          refine ⟨fun c hc => ?_, ?_⟩
          · simp only [baseS, Finset.mem_union] at hc ⊢
            rcases hc with hc | hc
            · exact ⟨Or.inl (ihl1 c hc).1, (ihl1 c hc).2⟩
            · exact ⟨Or.inr (ihr1 c hc).1, (ihr1 c hc).2⟩
          · rcases ihl2 with h2 | h2
            · exact absurd h2 hlc
            · obtain ⟨c, hc⟩ := h2
              exact Or.inr ⟨c, by simp [baseS, hc]⟩
  | To l r ihl ihr =>
    intro g h
    rw [eval_part_to] at h
    rcases hl : eval_part l m with _ | l' <;> rcases hr : eval_part r m with _ | r' <;>
      rw [hl, hr] at h
    · rw [toC_none_left] at h
      exact absurd h (by simp)
    · rw [toC_none_left] at h
      obtain rfl := Option.some.inj h
      obtain ⟨ih1, ih2⟩ := ihr _ hr
      exact ⟨fun c hc => ⟨by simp [baseS, (ih1 c hc).1], (ih1 c hc).2⟩, ih2⟩
    · rw [toC_none_right] at h
      exact absurd h (by simp)
    · by_cases hlc : l' = .Cont
      · subst hlc
        rw [toC_cont_left] at h
        exact absurd h (by simp)
      · by_cases hrc : r' = .Cont
        · subst hrc
          rw [toC_some_cont hlc] at h
          obtain rfl : Logic.Not l' = g := Option.some.inj h
          obtain ⟨ih1, ih2⟩ := ihl l' hl
          refine ⟨fun c hc => ?_, ?_⟩
          · simp only [baseS, Finset.mem_union] at hc ⊢
            exact ⟨Or.inl (ih1 c hc).1, (ih1 c hc).2⟩
          · rcases ih2 with h2 | h2
            · exact absurd h2 hlc
            · exact Or.inr (by simpa [baseS] using h2)
        · rw [toC_some_some hlc hrc] at h
          obtain rfl : Logic.To l' r' = g := Option.some.inj h
          obtain ⟨ihl1, ihl2⟩ := ihl l' hl
          obtain ⟨ihr1, ihr2⟩ := ihr r' hr
          refine ⟨fun c hc => ?_, ?_⟩
          · simp only [baseS, Finset.mem_union] at hc ⊢
            rcases hc with hc | hc
            · exact ⟨Or.inl (ihl1 c hc).1, (ihl1 c hc).2⟩
            · exact ⟨Or.inr (ihr1 c hc).1, (ihr1 c hc).2⟩
          · rcases ihl2 with h2 | h2
            · exact absurd h2 hlc
            · obtain ⟨c, hc⟩ := h2
              exact Or.inr ⟨c, by simp [baseS, hc]⟩

end Logic

/-- `CheckError` of `src/logic.rs`: `TurnsOutFalse` carries the falsifying
partial valuation (a `HashMap<char, bool>`, embedded as an association
list), `NoBase` means the formula has no atoms. -/
inductive CheckError where
  | TurnsOutFalse : List (Char × Bool) → CheckError
  | NoBase : CheckError
deriving DecidableEq, Repr

namespace Logic

/-- The `get` function of a `HashMap<char, bool>` given as an association
list (first binding of a key wins). -/
def mOf (l : List (Char × Bool)) : Val :=
  fun c => (l.find? (fun p => p.1 == c)).map (fun p => p.2)

/-- `HashMap::insert`: bind `c` to `b`, overwriting any existing binding. -/
def insV (c : Char) (b : Bool) (l : List (Char × Bool)) : List (Char × Bool) :=
  (c, b) :: l.filter (fun p => !(p.1 == c))

theorem find?_filter_ne (l : List (Char × Bool)) (c x : Char) (hx : x ≠ c) :
    (l.filter (fun p => !(p.1 == c))).find? (fun p => p.1 == x) =
      l.find? (fun p => p.1 == x) := by
  induction l with
  | nil => rfl
  | cons a t ih =>
    by_cases hac : a.1 = c
    · have h1 : (a.1 == c) = true := by simp [hac]
      have h2 : (a.1 == x) = false := by simp [hac]; exact fun hxx => hx hxx.symm
      simp [List.filter, List.find?, h1, h2, ih]
    · have h1 : (a.1 == c) = false := by simp [hac]
      by_cases hax : a.1 = x
      · have h2 : (a.1 == x) = true := by simp [hax]
        simp [List.filter, List.find?, h1, h2]
      · have h2 : (a.1 == x) = false := by simp [hax]
        simp [List.filter, List.find?, h1, h2, ih]

theorem mOf_insV (c : Char) (b : Bool) (l : List (Char × Bool)) :
    mOf (insV c b l) = munion (mOf [(c, b)]) (mOf l) := by
  funext x
  by_cases hx : x = c
  · subst hx
    simp [mOf, insV, munion, List.find?]
  · have h1 : (c == x) = false := by simp; exact fun hxx => hx hxx.symm
    simp only [mOf, insV, munion, List.find?, h1, find?_filter_ne l c x hx]
    rfl

theorem mOf_single_self (c : Char) (b : Bool) : mOf [(c, b)] c = some b := by
  simp [mOf, List.find?]

theorem head?_mem {α : Type} {l : List α} {a : α} (h : l.head? = some a) :
    a ∈ l := by
  cases l with
  | nil => simp at h
  | cons x t => simp at h; simp [h]

/-- The recursion of `check_all` shrinks the atom set: the residual after
assigning the picked atom has strictly fewer atoms. -/
theorem card_baseS_lt (f g : Logic) (c : Char) (b : Bool)
    (hc : c ∈ baseS f) (h : eval_part f (mOf [(c, b)]) = some g) :
    (baseS g).card < (baseS f).card := by
  have hres := (eval_part_residual f _ g h).1
  have hsub : baseS g ⊆ (baseS f).erase c := by
    intro a ha
    obtain ⟨h1, h2⟩ := hres a ha
    have hne : a ≠ c := by
      intro hac
      subst hac
      rw [mOf_single_self] at h2
      exact absurd h2 (by simp)
    exact Finset.mem_erase.mpr ⟨hne, h1⟩
  calc (baseS g).card ≤ ((baseS f).erase c).card := Finset.card_le_card hsub
    _ < (baseS f).card := Finset.card_erase_lt_of_mem hc

/-- `Logic::check_all` of `src/logic.rs` (the `CheckError` version used by
`exec`), with the `for b in [true, false]` loop unrolled into the `true`
branch followed by the `false` branch, and the source's arbitrary pick of an
atom from the `HashSet` resolved to the leftmost atom.  On a recursive
failure, the picked binding is inserted into the witness valuation exactly
as the source's `map_err` does. -/
def check_all (f : Logic) : Except CheckError Unit :=
  match hp : (baseL f).head? with
  | none => .error .NoBase
  | some c =>
    match h1 : eval_part f (mOf [(c, true)]) with
    | some .Cont => .error (.TurnsOutFalse [(c, true)])
    | some g1 =>
      match check_all g1 with
      | .error .NoBase => .error .NoBase
      | .error (.TurnsOutFalse m) => .error (.TurnsOutFalse (insV c true m))
      | .ok _ =>
        match h2 : eval_part f (mOf [(c, false)]) with
        | some .Cont => .error (.TurnsOutFalse [(c, false)])
        | some g2 =>
          match check_all g2 with
          | .error .NoBase => .error .NoBase
          | .error (.TurnsOutFalse m) => .error (.TurnsOutFalse (insV c false m))
          | .ok _ => .ok ()
        | none => .ok ()
    | none =>
      match h2 : eval_part f (mOf [(c, false)]) with
      | some .Cont => .error (.TurnsOutFalse [(c, false)])
      | some g2 =>
        match check_all g2 with
        | .error .NoBase => .error .NoBase
        | .error (.TurnsOutFalse m) => .error (.TurnsOutFalse (insV c false m))
        | .ok _ => .ok ()
      | none => .ok ()
termination_by (baseS f).card
decreasing_by
  all_goals
    exact card_baseS_lt f _ c _
      ((mem_baseL_iff_mem_baseS f c).mp (head?_mem hp)) (by assumption)

theorem mOf_single_ne {c x : Char} (b : Bool) (hx : x ≠ c) :
    mOf [(c, b)] x = none := by
  have h1 : (c == x) = false := by simp; exact fun hxx => hx hxx.symm
  simp [mOf, List.find?, h1]

theorem munion_single_total (c : Char) (v : Char → Bool) :
    munion (mOf [(c, v c)]) (fun x => some (v x)) = fun x => some (v x) := by
  funext x
  by_cases hx : x = c
  · subst hx
    simp [munion, mOf_single_self]
  · simp [munion, mOf_single_ne _ hx]

/-- Evaluating a total valuation through the picked atom first. -/
theorem eval_part_total_split (f : Logic) (c : Char) (v : Char → Bool) :
    eval_part f (fun x => some (v x)) =
      seqv (fun x => some (v x)) (eval_part f (mOf [(c, v c)])) := by
  conv_lhs => rw [← munion_single_total c v]
  exact eval_part_munion f _ _

/-- `eval_part` only consults the atoms of the formula. -/
theorem eval_part_congr (f : Logic) (m1 m2 : Val)
    (h : ∀ c ∈ baseS f, m1 c = m2 c) : eval_part f m1 = eval_part f m2 := by
  induction f with
  | Base c => simp only [eval_part, h c (by simp [baseS])]
  | Cont => rfl
  | Not g ih =>
    rw [eval_part_not, eval_part_not, ih (fun c hc => h c (by simpa [baseS] using hc))]
  | And l r ihl ihr =>
    rw [eval_part_and, eval_part_and,
      ihl (fun c hc => h c (by simp [baseS, hc])),
      ihr (fun c hc => h c (by simp [baseS, hc]))]
  | Or l r ihl ihr =>
    rw [eval_part_or, eval_part_or,
      ihl (fun c hc => h c (by simp [baseS, hc])),
      ihr (fun c hc => h c (by simp [baseS, hc]))]
  | To l r ihl ihr =>
    rw [eval_part_to, eval_part_to,
      ihl (fun c hc => h c (by simp [baseS, hc])),
      ihr (fun c hc => h c (by simp [baseS, hc]))]

theorem baseL_eq_nil {f : Logic} (h : baseS f = ∅) : baseL f = [] := by
  rw [List.eq_nil_iff_forall_not_mem]
  intro c hc
  rw [mem_baseL_iff_mem_baseS] at hc
  rw [h] at hc
  simp at hc

/-- A formula with no atoms is rejected by `check_all` with `NoBase`. -/
theorem check_all_noBase {f : Logic} (h : baseS f = ∅) :
    check_all f = .error .NoBase := by
  rw [check_all, baseL_eq_nil h]
  rfl

/-- If `check_all` succeeds then every total truth assignment evaluates the
formula to `none` (true). -/
theorem check_all_ok_valid :
    ∀ (N : Nat) (f : Logic), (baseS f).card = N → check_all f = .ok () →
      ∀ v : Char → Bool, eval_part f (fun x => some (v x)) = none := by
  intro N
  induction N using Nat.strong_induction_on with
  | _ N IH =>
    intro f hN hok v
    rw [check_all] at hok
    split at hok
    · exact absurd hok (by simp)
    · rename_i c hp
      have hc : c ∈ baseS f := (mem_baseL_iff_mem_baseS f c).mp (head?_mem hp)
      split at hok
      · exact absurd hok (by simp)
      · rename_i g1 hg1c h1
        split at hok
        · exact absurd hok (by simp)
        · exact absurd hok (by simp)
        · rename_i u1 hok1
          split at hok
          · exact absurd hok (by simp)
          · rename_i g2 hg2c h2
            split at hok
            · exact absurd hok (by simp)
            · exact absurd hok (by simp)
            · rename_i u2 hok2
              cases hv : v c
              · rw [eval_part_total_split f c v, hv, h2]
                simp only [seqv]
                exact IH _ (hN ▸ card_baseS_lt f g2 c false hc h2) g2 rfl hok2 v
              · rw [eval_part_total_split f c v, hv, h1]
                simp only [seqv]
                exact IH _ (hN ▸ card_baseS_lt f g1 c true hc h1) g1 rfl hok1 v
          · rename_i h2
            cases hv : v c
            · rw [eval_part_total_split f c v, hv, h2]
              rfl
            · rw [eval_part_total_split f c v, hv, h1]
              simp only [seqv]
              exact IH _ (hN ▸ card_baseS_lt f g1 c true hc h1) g1 rfl hok1 v
      · rename_i h1
        split at hok
        · exact absurd hok (by simp)
        · rename_i g2 hg2c h2
          split at hok
          · exact absurd hok (by simp)
          · exact absurd hok (by simp)
          · rename_i u2 hok2
            cases hv : v c
            · rw [eval_part_total_split f c v, hv, h2]
              simp only [seqv]
              exact IH _ (hN ▸ card_baseS_lt f g2 c false hc h2) g2 rfl hok2 v
            · rw [eval_part_total_split f c v, hv, h1]
              rfl
        · rename_i h2
          cases hv : v c
          · rw [eval_part_total_split f c v, hv, h2]
            rfl
          · rw [eval_part_total_split f c v, hv, h1]
            rfl

/-- When `check_all` reports `TurnsOutFalse m`, the formula evaluates to
`Cont` (false) under the carried valuation `m`. -/
theorem check_all_false_witness :
    ∀ (N : Nat) (f : Logic), (baseS f).card = N →
      ∀ m, check_all f = .error (.TurnsOutFalse m) →
        eval_part f (mOf m) = some .Cont := by
  intro N
  induction N using Nat.strong_induction_on with
  | _ N IH =>
    intro f hN m herr
    rw [check_all] at herr
    split at herr
    · exact absurd herr (by simp)
    · rename_i c hp
      have hc : c ∈ baseS f := (mem_baseL_iff_mem_baseS f c).mp (head?_mem hp)
      split at herr
      · rename_i h1
        simp only [Except.error.injEq, CheckError.TurnsOutFalse.injEq] at herr
        subst herr
        exact h1
      · rename_i g1 hg1c h1
        split at herr
        · exact absurd herr (by simp)
        · rename_i m' hrec
          simp only [Except.error.injEq, CheckError.TurnsOutFalse.injEq] at herr
          subst herr
          rw [mOf_insV, eval_part_munion, h1]
          simp only [seqv]
          exact IH _ (hN ▸ card_baseS_lt f g1 c true hc h1) g1 rfl m' hrec
        · rename_i u1 hok1
          split at herr
          · rename_i h2
            simp only [Except.error.injEq, CheckError.TurnsOutFalse.injEq] at herr
            subst herr
            exact h2
          · rename_i g2 hg2c h2
            split at herr
            · exact absurd herr (by simp)
            · rename_i m' hrec
              simp only [Except.error.injEq, CheckError.TurnsOutFalse.injEq] at herr
              subst herr
              rw [mOf_insV, eval_part_munion, h2]
              simp only [seqv]
              exact IH _ (hN ▸ card_baseS_lt f g2 c false hc h2) g2 rfl m' hrec
            · exact absurd herr (by simp)
          · exact absurd herr (by simp)
      · rename_i h1
        split at herr
        · rename_i h2
          simp only [Except.error.injEq, CheckError.TurnsOutFalse.injEq] at herr
          subst herr
          exact h2
        · rename_i g2 hg2c h2
          split at herr
          · exact absurd herr (by simp)
          · rename_i m' hrec
            simp only [Except.error.injEq, CheckError.TurnsOutFalse.injEq] at herr
            subst herr
            rw [mOf_insV, eval_part_munion, h2]
            simp only [seqv]
            exact IH _ (hN ▸ card_baseS_lt f g2 c false hc h2) g2 rfl m' hrec
          · exact absurd herr (by simp)
        · exact absurd herr (by simp)

theorem eval_part_total_split_const (f : Logic) (c : Char) (b : Bool) :
    eval_part f (fun _ => some b) =
      seqv (fun _ => some b) (eval_part f (mOf [(c, b)])) := by
  simpa using eval_part_total_split f c (fun _ => b)

/-- If every total truth assignment evaluates the formula (which has at least
one atom) to `none`, `check_all` succeeds. -/
theorem check_all_valid_ok :
    ∀ (N : Nat) (f : Logic), (baseS f).card = N → (baseS f).Nonempty →
      (∀ v : Char → Bool, eval_part f (fun x => some (v x)) = none) →
      check_all f = .ok () := by
  intro N
  induction N using Nat.strong_induction_on with
  | _ N IH =>
    intro f hN hne hval
    rw [check_all]
    split
    · rename_i hp
      obtain ⟨c, hcS⟩ := hne
      have hmem : c ∈ baseL f := (mem_baseL_iff_mem_baseS f c).mpr hcS
      cases hL : baseL f with
      | nil => rw [hL] at hmem; simp at hmem
      | cons a t => rw [hL] at hp; simp at hp
    · rename_i c hp
      have hc : c ∈ baseS f := (mem_baseL_iff_mem_baseS f c).mp (head?_mem hp)
      have key : ∀ (b : Bool) (g : Logic), eval_part f (mOf [(c, b)]) = some g →
          g ≠ .Cont → check_all g = .ok () := by
        intro b g hg hgn
        have hag := (eval_part_residual f (mOf [(c, b)]) g hg).1
        have hgne : (baseS g).Nonempty := by
          rcases (eval_part_residual f (mOf [(c, b)]) g hg).2 with h2 | h2
          · exact absurd h2 hgn
          · exact h2
        have hgval : ∀ w : Char → Bool,
            eval_part g (fun x => some (w x)) = none := by
          intro w
          set v : Char → Bool := fun x => if x = c then b else w x with hvdef
          have hvA := eval_part_total_split f c v
          have hvc : v c = b := by rw [hvdef]; simp
          rw [hvc, hg, hval v] at hvA
          simp only [seqv] at hvA
          have hcong : eval_part g (fun x => some (v x)) =
              eval_part g (fun x => some (w x)) := by
            refine eval_part_congr g _ _ (fun a ha => ?_)
            have hac : a ≠ c := by
              intro h'
              subst h'
              have h2 := (hag a ha).2
              rw [mOf_single_self] at h2
              exact absurd h2 (by simp)
            rw [hvdef]
            simp only [if_neg hac]
          rw [← hcong, ← hvA]
        exact IH _ (hN ▸ card_baseS_lt f g c b hc hg) g rfl hgne hgval
      split
      · rename_i h1
        have hv : eval_part f (fun _ => some true) = none := by
          simpa using hval (fun _ => true)
        rw [eval_part_total_split_const f c true, h1] at hv
        simp [seqv, eval_part] at hv
      · rename_i g1 hg1c h1
        simp only [key true g1 h1 hg1c]
        split
        · rename_i h2
          have hv : eval_part f (fun _ => some false) = none := by
            simpa using hval (fun _ => false)
          rw [eval_part_total_split_const f c false, h2] at hv
          simp [seqv, eval_part] at hv
        · rename_i g2 hg2c h2
          simp only [key false g2 h2 hg2c]
        · rfl
      · rename_i h1
        split
        · rename_i h2
          have hv : eval_part f (fun _ => some false) = none := by
            simpa using hval (fun _ => false)
          rw [eval_part_total_split_const f c false, h2] at hv
          simp [seqv, eval_part] at hv
        · rename_i g2 hg2c h2
          simp only [key false g2 h2 hg2c]
        · rfl

end Logic

/-! ## The solver (`src/solver.rs`) -/

/-- An assumption context: the `axioms: HashMap<&Logic, Rc<RefCell<usize>>>`
field, as an association list in insertion order whose values are marker
identifiers. -/
abbrev Ctx := List (Logic × Nat)

/-- `HashMap::insert`: overwrite the value of an existing key in place, or
append a new binding. -/
def insertKV : Ctx → Logic → Nat → Ctx
  | [], k, v => [(k, v)]
  | (k', v') :: rest, k, v =>
    if k' = k then (k, v) :: rest else (k', v') :: insertKV rest k v

/-- `Problem` of `src/solver.rs`: the goal `logic`, the assumption map
`axioms` (field `axms` here), and the node's own marker (its identifier).
The write-only `history` field is omitted. -/
structure Problem where
  logic : Logic
  axms : Ctx
  markerId : Nat
deriving DecidableEq, Repr

/-- `Inference` of `src/solver.rs` with its `InferenceType` flattened into
the four constructors: `axm` is `InferenceType::Axiom` (with `ref` the
identifier of the weakly referenced marker), and `unary`/`binary`/`trinary`
are `UnaryInf`/`BinaryInf`/`TrinaryInf`. -/
inductive Inference where
  | axm : Logic → Ctx → Nat → Nat → Inference
  | unary : Logic → Ctx → Nat → Inference → Inference
  | binary : Logic → Ctx → Nat → Inference → Inference → Inference
  | trinary : Logic → Ctx → Nat → Inference → Inference → Inference → Inference
deriving DecidableEq, Repr

namespace Inference

/-- The conclusion of an inference node. -/
def logic : Inference → Logic
  | .axm l .. => l
  | .unary l .. => l
  | .binary l .. => l
  | .trinary l .. => l

/-- The assumption context of an inference node. -/
def axms : Inference → Ctx
  | .axm _ a .. => a
  | .unary _ a .. => a
  | .binary _ a .. => a
  | .trinary _ a .. => a

/-- The marker identifier of an inference node. -/
def markerId : Inference → Nat
  | .axm _ _ k _ => k
  | .unary _ _ k _ => k
  | .binary _ _ k _ _ => k
  | .trinary _ _ k _ _ _ => k

end Inference

/-- `SolveError` of `src/solver.rs`: exactly two variants, `InferError`
(could not infer, carries the formula) and `CheckError` (wraps a
`CheckError`). -/
inductive SolveError where
  | InferError : Logic → SolveError
  | CheckError : CheckError → SolveError
deriving DecidableEq, Repr

/-- The result threaded through the fueled solver: `none` means the fuel ran
out (the source diverges down this path); otherwise the `Result<Inference,
SolveError>` together with the next fresh marker identifier. -/
abbrev SolveM := Option ((Except SolveError Inference) × Nat)

/-- `Problem::problem` and `Inference::problem` of `src/solver.rs` (they
differ only in the omitted `history` bookkeeping): build a sub-problem with
the parent's assumption map, optionally inserting one binding, and a fresh
marker (a fresh identifier drawn from `next`). -/
def mkProblem (axms : Ctx) (logic : Logic) (ins : Option (Logic × Nat))
    (next : Nat) : Problem × Nat :=
  let ax' := match ins with
    | some (k, v) => insertKV axms k v
    | none => axms
  (⟨logic, ax', next⟩, next + 1)

/-- `Problem::err` / `Inference::err`. -/
def Problem.err (p : Problem) : Except SolveError Inference :=
  .error (.InferError p.logic)

/-- `Inference::err`. -/
def Inference.err (i : Inference) : Except SolveError Inference :=
  .error (.InferError i.logic)

section Solver

-- The iteration order of the `HashMap` clone in `use_axioms` is
-- unspecified; `ord` resolves it.  `ord := id` is insertion order.
variable (ord : Ctx → Ctx)

mutual

/-- `Problem::solve`: try `use_axioms`, then `infer_logic`, then
`use_axioms` again, and fail with `err` otherwise.  Branch errors are
discarded (`if let Ok`); exhausted fuel (`none`) aborts the whole run. -/
def solveF : Nat → Nat → Problem → SolveM
  | 0, _, _ => none
  | fuel + 1, next, p =>
    match useAxmsF fuel next p with
    | none => none
    | some (.ok i, n1) => some (.ok i, n1)
    | some (.error _, n1) =>
      match inferLogicF fuel n1 p with
      | none => none
      | some (.ok i, n2) => some (.ok i, n2)
      | some (.error _, n2) =>
        match useAxmsF fuel n2 p with
        | none => none
        | some (.ok i, n3) => some (.ok i, n3)
        | some (.error _, n3) => some (p.err, n3)
termination_by structural fuel => fuel

/-- `Problem::use_axioms`: iterate the (reordered) assumption map. -/
def useAxmsF : Nat → Nat → Problem → SolveM
  | 0, _, _ => none
  | fuel + 1, next, p => useAxmsGo fuel next p (ord p.axms)
termination_by structural fuel => fuel

/-- The `for (axiom, marker) in axioms` loop of `use_axioms`: build an
`Axiom` inference for each assumption and try `use_logic` on it; the first
success wins, a failure moves to the next assumption, exhaustion is `err`. -/
def useAxmsGo : Nat → Nat → Problem → Ctx → SolveM
  | 0, _, _, _ => none
  | _ + 1, next, p, [] => some (p.err, next)
  | fuel + 1, next, p, (a, m) :: rest =>
    let pr := mkProblem p.axms a none next
    let i : Inference := .axm pr.1.logic pr.1.axms pr.1.markerId m
    match useLogicF fuel pr.2 i p with
    | none => none
    | some (.ok j, n2) => some (.ok j, n2)
    | some (.error _, n2) => useAxmsGo fuel n2 p rest
termination_by structural fuel => fuel

/-- `Problem::infer_logic` together with `infer_not` / `infer_and` /
`infer_or` / `infer_to`: introduce the main connective of the goal. -/
def inferLogicF : Nat → Nat → Problem → SolveM
  | 0, _, _ => none
  | fuel + 1, next, p =>
    match p.logic with
    | .Not g =>
      let pr := mkProblem p.axms .Cont (some (g, p.markerId)) next
      match solveF fuel pr.2 pr.1 with
      | none => none
      | some (.error e, n2) => some (.error e, n2)
      | some (.ok i0, n2) => some (.ok (.unary p.logic p.axms p.markerId i0), n2)
    | .And l r =>
      let pr0 := mkProblem p.axms l none next
      let pr1 := mkProblem p.axms r none pr0.2
      match solveF fuel pr1.2 pr0.1 with
      | none => none
      | some (.error e, n3) => some (.error e, n3)
      | some (.ok i0, n3) =>
        match solveF fuel n3 pr1.1 with
        | none => none
        | some (.error e, n4) => some (.error e, n4)
        | some (.ok i1, n4) =>
          some (.ok (.binary p.logic p.axms p.markerId i0 i1), n4)
    | .Or l r =>
      let pr0 := mkProblem p.axms l none next
      match solveF fuel pr0.2 pr0.1 with
      | none => none
      | some (.ok i0, n2) => some (.ok (.unary p.logic p.axms p.markerId i0), n2)
      | some (.error _, n2) =>
        let pr1 := mkProblem p.axms r none n2
        match solveF fuel pr1.2 pr1.1 with
        | none => none
        | some (.ok i1, n4) => some (.ok (.unary p.logic p.axms p.markerId i1), n4)
        | some (.error _, n4) => some (p.err, n4)
    | .To l r =>
      let pr := mkProblem p.axms r (some (l, p.markerId)) next
      match solveF fuel pr.2 pr.1 with
      | none => none
      | some (.error e, n2) => some (.error e, n2)
      | some (.ok i0, n2) => some (.ok (.unary p.logic p.axms p.markerId i0), n2)
    | _ => some (p.err, next)
termination_by structural fuel => fuel

/-- `Inference::use_logic` together with `use_cont` / `use_not` / `use_and` /
`use_or` / `use_to`: extend a concluded subproof toward the target goal.
The only guard is the conclusion-equals-goal test at the top. -/
def useLogicF : Nat → Nat → Inference → Problem → SolveM
  | 0, _, _, _ => none
  | fuel + 1, next, i, t =>
    if i.logic = t.logic then some (.ok i, next)
    else
      match i.logic with
      | .Cont => some (.ok (.unary t.logic t.axms t.markerId i), next)
      | .Not g =>
        let pr0 := mkProblem i.axms g none next
        let pc := mkProblem i.axms .Cont none pr0.2
        match solveF fuel pc.2 pr0.1 with
        | none => none
        | some (.error e, n3) => some (.error e, n3)
        | some (.ok i0, n3) =>
          useLogicF fuel n3 (.binary pc.1.logic pc.1.axms pc.1.markerId i0 i) t
      | .And l r =>
        let prl := mkProblem i.axms l none next
        match useLogicF fuel prl.2 (.unary prl.1.logic prl.1.axms prl.1.markerId i) t with
        | none => none
        | some (.ok j, n2) => some (.ok j, n2)
        | some (.error _, n2) =>
          let prr := mkProblem i.axms r none n2
          match useLogicF fuel prr.2 (.unary prr.1.logic prr.1.axms prr.1.markerId i) t with
          | none => none
          | some (.ok j, n4) => some (.ok j, n4)
          | some (.error _, n4) => some (i.err, n4)
      | .Or l r =>
        let pr1 := mkProblem i.axms i.logic (some (l, i.markerId)) next
        let pr2 := mkProblem i.axms i.logic (some (r, i.markerId)) pr1.2
        match solveF fuel pr2.2 pr1.1 with
        | none => none
        | some (.error e, n3) => some (.error e, n3)
        | some (.ok j1, n3) =>
          match solveF fuel n3 pr2.1 with
          | none => none
          | some (.error e, n4) => some (.error e, n4)
          | some (.ok j2, n4) =>
            some (.ok (.trinary t.logic t.axms t.markerId i j1 j2), n4)
      | .To l r =>
        let pr0 := mkProblem i.axms l none next
        let prr := mkProblem i.axms r none pr0.2
        match solveF fuel prr.2 pr0.1 with
        | none => none
        | some (.error e, n3) => some (.error e, n3)
        | some (.ok i0, n3) =>
          useLogicF fuel n3 (.binary prr.1.logic prr.1.axms prr.1.markerId i0 i) t
      | .Base _ => some (i.err, next)
termination_by structural fuel => fuel

end

end Solver

/-- `Problem::new(logic)` followed by `Problem::solve`: an empty context and
the root marker identifier `0`; fresh identifiers start at `1`. -/
def solveTop (ord : Ctx → Ctx) (fuel : Nat) (f : Logic) : SolveM :=
  solveF ord fuel 1 ⟨f, [], 0⟩

/-- The canonical resolution of the `HashMap` iteration order: insertion
order. -/
def solveTopI (fuel : Nat) (f : Logic) : SolveM := solveTop id fuel f

/-- A second legitimate resolution of the `HashMap` iteration order:
reversed insertion order. -/
def solveTopR (fuel : Nat) (f : Logic) : SolveM := solveTop List.reverse fuel f

/-- The search loop behind the divergence on `¬¬A → A`: solving `¬A` under
the context `{¬¬A ↦ 0}` re-enters itself through `use_axioms` → `use_logic`
→ `use_not`, so it exhausts any finite fuel. -/
theorem solve_loop_nnA : ∀ (n next mk : Nat),
    solveF id n next
      ⟨.Not (.Base 'A'), [(.Not (.Not (.Base 'A')), 0)], mk⟩ = none := by
  intro n
  induction n using Nat.strong_induction_on with
  | _ n IH =>
    intro next mk
    rcases n with _ | n
    · simp [solveF]
    rcases n with _ | n
    · simp [solveF, useAxmsF]
    rcases n with _ | n
    · simp [solveF, useAxmsF, useAxmsGo]
    rcases n with _ | n
    · simp [solveF, useAxmsF, useAxmsGo, useLogicF, mkProblem, id_eq]
    simp [solveF, useAxmsF, useAxmsGo, useLogicF, inferLogicF, mkProblem,
      Inference.logic, Inference.axms, Inference.markerId, id_eq,
      IH n (by omega)]

/-- Solving `A` under `{¬¬A ↦ 0}` reaches the loop of `solve_loop_nnA`. -/
theorem solve_goalA_nnA : ∀ (n next mk : Nat),
    solveF id n next
      ⟨.Base 'A', [(.Not (.Not (.Base 'A')), 0)], mk⟩ = none := by
  intro n next mk
  rcases n with _ | n
  · simp [solveF]
  rcases n with _ | n
  · simp [solveF, useAxmsF]
  rcases n with _ | n
  · simp [solveF, useAxmsF, useAxmsGo]
  rcases n with _ | n
  · simp [solveF, useAxmsF, useAxmsGo, useLogicF, mkProblem, id_eq]
  simp [solveF, useAxmsF, useAxmsGo, useLogicF, inferLogicF, mkProblem,
    Inference.logic, Inference.axms, Inference.markerId, id_eq,
    solve_loop_nnA n]

/-- The search loop behind the divergence on `¬A → (A → B)`: solving `A`
under the context `{¬A ↦ 0}` re-enters itself through `use_axioms` →
`use_logic` → `use_not`. -/
theorem solve_loop_nA : ∀ (n next mk : Nat),
    solveF id n next
      ⟨.Base 'A', [(.Not (.Base 'A'), 0)], mk⟩ = none := by
  intro n
  induction n using Nat.strong_induction_on with
  | _ n IH =>
    intro next mk
    rcases n with _ | n
    · simp [solveF]
    rcases n with _ | n
    · simp [solveF, useAxmsF]
    rcases n with _ | n
    · simp [solveF, useAxmsF, useAxmsGo]
    rcases n with _ | n
    · simp [solveF, useAxmsF, useAxmsGo, useLogicF, mkProblem, id_eq]
    simp [solveF, useAxmsF, useAxmsGo, useLogicF, inferLogicF, mkProblem,
      Inference.logic, Inference.axms, Inference.markerId, id_eq,
      IH n (by omega)]

/-- Solving `A → B` under `{¬A ↦ 0}` reaches the loop of `solve_loop_nA`. -/
theorem solve_goalToAB_nA : ∀ (n next mk : Nat),
    solveF id n next
      ⟨.To (.Base 'A') (.Base 'B'), [(.Not (.Base 'A'), 0)], mk⟩ = none := by
  intro n next mk
  rcases n with _ | n
  · simp [solveF]
  rcases n with _ | n
  · simp [solveF, useAxmsF]
  rcases n with _ | n
  · simp [solveF, useAxmsF, useAxmsGo]
  rcases n with _ | n
  · simp [solveF, useAxmsF, useAxmsGo, useLogicF, mkProblem, id_eq]
  simp [solveF, useAxmsF, useAxmsGo, useLogicF, inferLogicF, mkProblem,
    Inference.logic, Inference.axms, Inference.markerId, id_eq,
    solve_loop_nA n]

/-- `use_axioms` on the goal `A` under `{¬¬A ↦ 0}` falls into the loop. -/
theorem useAxms_goalA_nnA : ∀ (n next mk : Nat),
    useAxmsF id n next
      ⟨.Base 'A', [(.Not (.Not (.Base 'A')), 0)], mk⟩ = none := by
  intro n next mk
  rcases n with _ | n
  · rfl
  rcases n with _ | n
  · rfl
  rcases n with _ | n
  · rfl
  simp [useAxmsF, useAxmsGo, useLogicF, mkProblem, Inference.logic,
    Inference.axms, Inference.markerId, id_eq, solve_loop_nnA n]

/-- `use_axioms` on the goal `A → B` under `{¬A ↦ 0}` falls into the loop. -/
theorem useAxms_goalToAB_nA : ∀ (n next mk : Nat),
    useAxmsF id n next
      ⟨.To (.Base 'A') (.Base 'B'), [(.Not (.Base 'A'), 0)], mk⟩ = none := by
  intro n next mk
  rcases n with _ | n
  · rfl
  rcases n with _ | n
  · rfl
  rcases n with _ | n
  · rfl
  simp [useAxmsF, useAxmsGo, useLogicF, mkProblem, Inference.logic,
    Inference.axms, Inference.markerId, id_eq, solve_loop_nA n]

/-- The whole run on `¬¬A → A` exhausts every finite fuel: the source
diverges on this input. -/
theorem solveTopI_nnA_diverges : ∀ (n : Nat),
    solveTopI n (.To (.Not (.Not (.Base 'A'))) (.Base 'A')) = none := by
  intro n
  rw [solveTopI, solveTop]
  rcases n with _ | n
  · simp [solveF]
  rcases n with _ | n
  · simp [solveF, useAxmsF]
  rcases n with _ | n
  · simp [solveF, useAxmsF, useAxmsGo]
  simp [solveF, useAxmsF, useAxmsGo, inferLogicF, mkProblem, insertKV,
    Problem.err, id_eq, useAxms_goalA_nnA, solve_goalA_nnA]

/-- The whole run on `¬A → (A → B)` exhausts every finite fuel: the source
diverges on this input. -/
theorem solveTopI_nA_diverges : ∀ (n : Nat),
    solveTopI n (.To (.Not (.Base 'A')) (.To (.Base 'A') (.Base 'B'))) = none := by
  intro n
  rw [solveTopI, solveTop]
  rcases n with _ | n
  · simp [solveF]
  rcases n with _ | n
  · simp [solveF, useAxmsF]
  rcases n with _ | n
  · simp [solveF, useAxmsF, useAxmsGo]
  simp [solveF, useAxmsF, useAxmsGo, inferLogicF, mkProblem, insertKV,
    Problem.err, id_eq, useAxms_goalToAB_nA, solve_goalToAB_nA]

/-! ## Rendering of formulas (`impl TeX for Logic` and `impl Display for
Logic` in `src/logic.rs`) -/

namespace Logic

/-- `Logic::is_low` of `src/logic.rs`: atoms, `⊥` and negations are low
precedence and never parenthesised by their parents. -/
def is_low : Logic → Bool
  | .Base _ => true
  | .Cont => true
  | .Not _ => true
  | _ => false

/-- `Logic::tex` (`impl TeX for Logic`, `src/logic.rs` lines 229-282), on
`List Char`.  Note the source parenthesises the operand of a `To` on either
side whenever that operand is itself a `To`. -/
def texL : Logic → List Char
  | .Base c => [c]
  | .Cont => "\\perp".toList
  | .Not g =>
    if g.is_low then "\\lnot ".toList ++ texL g
    else "\\lnot (".toList ++ texL g ++ ")".toList
  | .And l r =>
    (if l.is_low then texL l else "(".toList ++ texL l ++ ")".toList) ++
      " \\land ".toList ++
      (if r.is_low then texL r else "(".toList ++ texL r ++ ")".toList)
  | .Or l r =>
    (if l.is_low then texL l else "(".toList ++ texL l ++ ")".toList) ++
      " \\lor ".toList ++
      (if r.is_low then texL r else "(".toList ++ texL r ++ ")".toList)
  | .To l r =>
    (match l with
      | .To _ _ => "(".toList ++ texL l ++ ")".toList
      | _ => texL l) ++
      " \\to ".toList ++
      (match r with
        | .To _ _ => "(".toList ++ texL r ++ ")".toList
        | _ => texL r)

end Logic

/-- Does the first list lead the second (is it a prefix)? -/
def leadsWith : List Char → List Char → Bool
  | [], _ => true
  | _ :: _, [] => false
  | p :: ps, c :: cs => p == c && leadsWith ps cs

/-- Rust `str::replace` on `List Char`: replace every occurrence of the
pattern `p0 :: pt` (scanning left to right, not rescanning replacements) by
`rep`.  The pattern is passed head-and-tail so that it is visibly
nonempty. -/
def replOne (p0 : Char) (pt rep : List Char) : List Char → List Char
  | [] => []
  | c :: s =>
    if leadsWith (p0 :: pt) (c :: s) then
      rep ++ replOne p0 pt rep (s.drop pt.length)
    else c :: replOne p0 pt rep s
termination_by l => l.length
decreasing_by
  · simp
    omega
  · simp

/-- The five `.replace` calls of `impl Display for Logic`
(`src/logic.rs` lines 284-295), in source order. -/
def replace5 (s : List Char) : List Char :=
  replOne '\\' "to".toList "→".toList
    (replOne '\\' "lor".toList "∨".toList
      (replOne '\\' "land".toList "∧".toList
        (replOne '\\' "lnot".toList "¬".toList
          (replOne '\\' "perp".toList "⊥".toList s))))

/-- `impl Display for Logic`: the unicode console rendering is the TeX
rendering with the five macro replacements applied. -/
def displayL (f : Logic) : List Char := replace5 (Logic.texL f)

theorem leadsWith_append_self (p x : List Char) :
    leadsWith p (p ++ x) = true := by
  induction p with
  | nil => rfl
  | cons a t ih => simp [leadsWith, ih]

theorem leadsWith_cross (p m x : List Char)
    (h1 : leadsWith p m = false) (h2 : leadsWith m p = false) :
    leadsWith p (m ++ x) = false := by
  induction p generalizing m with
  | nil => simp [leadsWith] at h1
  | cons a t ih =>
    cases m with
    | nil => simp [leadsWith] at h2
    | cons b u =>
      by_cases hab : a = b
      · subst hab
        simp only [leadsWith, Bool.and_eq_false_imp] at h1 h2
        simp only [List.cons_append, leadsWith, beq_self_eq_true,
          Bool.true_and]
        exact ih u (h1 (by simp)) (h2 (by simp))
      · simp only [List.cons_append, leadsWith]
        simp [hab]

theorem replOne_nil (p0 : Char) (pt rep : List Char) :
    replOne p0 pt rep [] = [] := by
  simp [replOne]

theorem replOne_cons_ne (p0 : Char) (pt rep : List Char) (c : Char)
    (s : List Char) (h : c ≠ p0) :
    replOne p0 pt rep (c :: s) = c :: replOne p0 pt rep s := by
  rw [replOne]
  have hb : (p0 == c) = false := beq_eq_false_iff_ne.mpr (Ne.symm h)
  simp [leadsWith, hb]

theorem replOne_match (p0 : Char) (pt rep x : List Char) :
    replOne p0 pt rep ((p0 :: pt) ++ x) = rep ++ replOne p0 pt rep x := by
  have hl := leadsWith_append_self (p0 :: pt) x
  rw [List.cons_append] at hl
  rw [List.cons_append, replOne, hl]
  simp [List.drop_left]

theorem replOne_noslash (pt rep l : List Char)
    (hl : ∀ c ∈ l, c ≠ '\\') (x : List Char) :
    replOne '\\' pt rep (l ++ x) = l ++ replOne '\\' pt rep x := by
  induction l with
  | nil => simp
  | cons c t ih =>
    rw [List.cons_append, replOne_cons_ne _ _ _ _ _ (hl c (by simp)),
      ih (fun c hc => hl c (by simp [hc])), List.cons_append]

/-- A macro: a backslash followed by backslash-free text. -/
def MacShape (m : List Char) : Prop :=
  ∃ t, m = '\\' :: t ∧ ∀ c ∈ t, c ≠ '\\'

theorem replOne_macro_skip (pt rep : List Char) {m : List Char}
    (hm : MacShape m) (hc1 : leadsWith ('\\' :: pt) m = false)
    (hc2 : leadsWith m ('\\' :: pt) = false) (x : List Char) :
    replOne '\\' pt rep (m ++ x) = m ++ replOne '\\' pt rep x := by
  obtain ⟨t, rfl, ht⟩ := hm
  have hfalse : leadsWith ('\\' :: pt) (('\\' :: t) ++ x) = false :=
    leadsWith_cross _ _ x hc1 hc2
  rw [List.cons_append] at hfalse
  rw [List.cons_append, replOne, hfalse]
  simp only [Bool.false_eq_true, if_false]
  rw [replOne_noslash pt rep t ht x, List.cons_append]

/-- Strings in which every backslash begins one of the macros of `ms`. -/
inductive GoodFor (ms : List (List Char)) : List Char → Prop
  | nil : GoodFor ms []
  | chr {c : Char} {s : List Char} :
      c ≠ '\\' → GoodFor ms s → GoodFor ms (c :: s)
  | mac {m s : List Char} :
      m ∈ ms → GoodFor ms s → GoodFor ms (m ++ s)

theorem GoodFor.append {ms : List (List Char)} {a b : List Char}
    (ha : GoodFor ms a) (hb : GoodFor ms b) : GoodFor ms (a ++ b) := by
  induction ha with
  | nil => simpa
  | chr hc _ ih =>
    rw [List.cons_append]
    exact .chr hc ih
  | mac hm _ ih =>
    rw [List.append_assoc]
    exact .mac hm ih

theorem GoodFor.noslash_append {ms : List (List Char)} {l t : List Char}
    (hl : ∀ c ∈ l, c ≠ '\\') (ht : GoodFor ms t) : GoodFor ms (l ++ t) := by
  induction l with
  | nil => simpa
  | cons c u ih =>
    rw [List.cons_append]
    exact .chr (hl c (by simp)) (ih (fun c hc => hl c (by simp [hc])))

/-- One replacement pass distributes over append when the left part is
macro-structured. -/
theorem replOne_append_good {pt rep : List Char} {ms : List (List Char)}
    (hshape : ∀ m ∈ ms, MacShape m)
    (hcross : ∀ m ∈ ms, m ≠ '\\' :: pt →
      leadsWith ('\\' :: pt) m = false ∧ leadsWith m ('\\' :: pt) = false)
    {a : List Char} (ha : GoodFor ms a) (b : List Char) :
    replOne '\\' pt rep (a ++ b) =
      replOne '\\' pt rep a ++ replOne '\\' pt rep b := by
  induction ha with
  | nil => simp [replOne_nil]
  | chr hc _ ih =>
    rw [List.cons_append, replOne_cons_ne _ _ _ _ _ hc,
      replOne_cons_ne _ _ _ _ _ hc, ih, List.cons_append]
  | @mac m s hm _ ih =>
    by_cases he : m = '\\' :: pt
    · subst he
      rw [List.append_assoc, replOne_match, replOne_match, ih,
        List.append_assoc]
    · obtain ⟨h1, h2⟩ := hcross m hm he
      rw [List.append_assoc, replOne_macro_skip pt rep (hshape m hm) h1 h2,
        replOne_macro_skip pt rep (hshape m hm) h1 h2, ih, List.append_assoc]

/-- One replacement pass keeps the string macro-structured for the
remaining macros. -/
theorem replOne_good {pt rep : List Char} {ms msRest : List (List Char)}
    (hshape : ∀ m ∈ ms, MacShape m)
    (hcross : ∀ m ∈ ms, m ≠ '\\' :: pt →
      leadsWith ('\\' :: pt) m = false ∧ leadsWith m ('\\' :: pt) = false)
    (hrep : ∀ c ∈ rep, c ≠ '\\')
    (hrest : ∀ m ∈ ms, m ≠ '\\' :: pt → m ∈ msRest)
    {a : List Char} (ha : GoodFor ms a) :
    GoodFor msRest (replOne '\\' pt rep a) := by
  induction ha with
  | nil =>
    rw [replOne_nil]
    exact .nil
  | chr hc _ ih =>
    rw [replOne_cons_ne _ _ _ _ _ hc]
    exact .chr hc ih
  | @mac m s hm _ ih =>
    by_cases he : m = '\\' :: pt
    · subst he
      rw [replOne_match]
      exact GoodFor.noslash_append hrep ih
    · obtain ⟨h1, h2⟩ := hcross m hm he
      rw [replOne_macro_skip pt rep (hshape m hm) h1 h2]
      exact .mac (hrest m hm he) ih

/-- The five TeX macros emitted by `Logic::tex`. -/
def ms5 : List (List Char) :=
  ["\\perp".toList, "\\lnot".toList, "\\land".toList, "\\lor".toList,
    "\\to".toList]

def ms4 : List (List Char) :=
  ["\\lnot".toList, "\\land".toList, "\\lor".toList, "\\to".toList]

def ms3 : List (List Char) := ["\\land".toList, "\\lor".toList, "\\to".toList]

def ms2 : List (List Char) := ["\\lor".toList, "\\to".toList]

def ms1 : List (List Char) := ["\\to".toList]

theorem shape_ms5 : ∀ m ∈ ms5, MacShape m := by
  intro m hm
  simp only [ms5, List.mem_cons, List.not_mem_nil, or_false] at hm
  rcases hm with rfl | rfl | rfl | rfl | rfl
  · exact ⟨"perp".toList, by decide, by decide⟩
  · exact ⟨"lnot".toList, by decide, by decide⟩
  · exact ⟨"land".toList, by decide, by decide⟩
  · exact ⟨"lor".toList, by decide, by decide⟩
  · exact ⟨"to".toList, by decide, by decide⟩

theorem shape_ms4 : ∀ m ∈ ms4, MacShape m := by
  intro m hm
  refine shape_ms5 m ?_
  simp only [ms4, List.mem_cons, List.not_mem_nil, or_false] at hm
  rcases hm with rfl | rfl | rfl | rfl <;> decide

theorem shape_ms3 : ∀ m ∈ ms3, MacShape m := by
  intro m hm
  refine shape_ms5 m ?_
  simp only [ms3, List.mem_cons, List.not_mem_nil, or_false] at hm
  rcases hm with rfl | rfl | rfl <;> decide

theorem shape_ms2 : ∀ m ∈ ms2, MacShape m := by
  intro m hm
  refine shape_ms5 m ?_
  simp only [ms2, List.mem_cons, List.not_mem_nil, or_false] at hm
  rcases hm with rfl | rfl <;> decide

theorem shape_ms1 : ∀ m ∈ ms1, MacShape m := by
  intro m hm
  refine shape_ms5 m ?_
  simp only [ms1, List.mem_cons, List.not_mem_nil, or_false] at hm
  subst hm
  decide

theorem cross_perp : ∀ m ∈ ms5, m ≠ '\\' :: "perp".toList →
    leadsWith ('\\' :: "perp".toList) m = false ∧
      leadsWith m ('\\' :: "perp".toList) = false := by decide

theorem cross_lnot : ∀ m ∈ ms4, m ≠ '\\' :: "lnot".toList →
    leadsWith ('\\' :: "lnot".toList) m = false ∧
      leadsWith m ('\\' :: "lnot".toList) = false := by decide

theorem cross_land : ∀ m ∈ ms3, m ≠ '\\' :: "land".toList →
    leadsWith ('\\' :: "land".toList) m = false ∧
      leadsWith m ('\\' :: "land".toList) = false := by decide

theorem cross_lor : ∀ m ∈ ms2, m ≠ '\\' :: "lor".toList →
    leadsWith ('\\' :: "lor".toList) m = false ∧
      leadsWith m ('\\' :: "lor".toList) = false := by decide

theorem cross_to : ∀ m ∈ ms1, m ≠ '\\' :: "to".toList →
    leadsWith ('\\' :: "to".toList) m = false ∧
      leadsWith m ('\\' :: "to".toList) = false := by decide

theorem rest_perp : ∀ m ∈ ms5, m ≠ '\\' :: "perp".toList → m ∈ ms4 := by
  decide

theorem rest_lnot : ∀ m ∈ ms4, m ≠ '\\' :: "lnot".toList → m ∈ ms3 := by
  decide

theorem rest_land : ∀ m ∈ ms3, m ≠ '\\' :: "land".toList → m ∈ ms2 := by
  decide

theorem rest_lor : ∀ m ∈ ms2, m ≠ '\\' :: "lor".toList → m ∈ ms1 := by
  decide

theorem rest_to : ∀ m ∈ ms1, m ≠ '\\' :: "to".toList → m ∈ ([] : List (List Char)) := by
  decide

/-- The five-pass replacement distributes over an append whose left part is
built from plain characters and whole macros. -/
theorem replace5_append {a : List Char} (ha : GoodFor ms5 a) (b : List Char) :
    replace5 (a ++ b) = replace5 a ++ replace5 b := by
  have h4 : GoodFor ms4 (replOne '\\' "perp".toList "⊥".toList a) :=
    replOne_good shape_ms5 cross_perp (by decide) rest_perp ha
  have h3 : GoodFor ms3 (replOne '\\' "lnot".toList "¬".toList
      (replOne '\\' "perp".toList "⊥".toList a)) :=
    replOne_good shape_ms4 cross_lnot (by decide) rest_lnot h4
  have h2 : GoodFor ms2 (replOne '\\' "land".toList "∧".toList
      (replOne '\\' "lnot".toList "¬".toList
        (replOne '\\' "perp".toList "⊥".toList a))) :=
    replOne_good shape_ms3 cross_land (by decide) rest_land h3
  have h1 : GoodFor ms1 (replOne '\\' "lor".toList "∨".toList
      (replOne '\\' "land".toList "∧".toList
        (replOne '\\' "lnot".toList "¬".toList
          (replOne '\\' "perp".toList "⊥".toList a)))) :=
    replOne_good shape_ms2 cross_lor (by decide) rest_lor h2
  unfold replace5
  rw [replOne_append_good shape_ms5 cross_perp ha b,
    replOne_append_good shape_ms4 cross_lnot h4 _,
    replOne_append_good shape_ms3 cross_land h3 _,
    replOne_append_good shape_ms2 cross_lor h2 _,
    replOne_append_good shape_ms1 cross_to h1 _]

theorem replace5_nil : replace5 [] = [] := by
  simp [replace5, replOne_nil]

theorem replace5_cons_ne {c : Char} (h : c ≠ '\\') (s : List Char) :
    replace5 (c :: s) = c :: replace5 s := by
  unfold replace5
  rw [replOne_cons_ne _ _ _ _ _ h, replOne_cons_ne _ _ _ _ _ h,
    replOne_cons_ne _ _ _ _ _ h, replOne_cons_ne _ _ _ _ _ h,
    replOne_cons_ne _ _ _ _ _ h]

theorem replace5_mac_perp (s : List Char) :
    replace5 (('\\' :: "perp".toList) ++ s) = '⊥' :: replace5 s := by
  unfold replace5
  rw [replOne_match]
  rw [replOne_noslash "lnot".toList "¬".toList "⊥".toList (by decide),
    replOne_noslash "land".toList "∧".toList "⊥".toList (by decide),
    replOne_noslash "lor".toList "∨".toList "⊥".toList (by decide),
    replOne_noslash "to".toList "→".toList "⊥".toList (by decide)]
  rfl

theorem replace5_mac_lnot (s : List Char) :
    replace5 (('\\' :: "lnot".toList) ++ s) = '¬' :: replace5 s := by
  unfold replace5
  rw [replOne_macro_skip "perp".toList "⊥".toList
    (show MacShape ('\\' :: "lnot".toList) from ⟨"lnot".toList, rfl, by decide⟩)
    (by decide) (by decide) s]
  rw [replOne_match]
  rw [replOne_noslash "land".toList "∧".toList "¬".toList (by decide),
    replOne_noslash "lor".toList "∨".toList "¬".toList (by decide),
    replOne_noslash "to".toList "→".toList "¬".toList (by decide)]
  rfl

theorem replace5_mac_land (s : List Char) :
    replace5 (('\\' :: "land".toList) ++ s) = '∧' :: replace5 s := by
  unfold replace5
  rw [replOne_macro_skip "perp".toList "⊥".toList
    (show MacShape ('\\' :: "land".toList) from ⟨"land".toList, rfl, by decide⟩)
    (by decide) (by decide) s]
  rw [replOne_macro_skip "lnot".toList "¬".toList
    (show MacShape ('\\' :: "land".toList) from ⟨"land".toList, rfl, by decide⟩)
    (by decide) (by decide) _]
  rw [replOne_match]
  rw [replOne_noslash "lor".toList "∨".toList "∧".toList (by decide),
    replOne_noslash "to".toList "→".toList "∧".toList (by decide)]
  rfl

theorem replace5_mac_lor (s : List Char) :
    replace5 (('\\' :: "lor".toList) ++ s) = '∨' :: replace5 s := by
  unfold replace5
  rw [replOne_macro_skip "perp".toList "⊥".toList
    (show MacShape ('\\' :: "lor".toList) from ⟨"lor".toList, rfl, by decide⟩)
    (by decide) (by decide) s]
  rw [replOne_macro_skip "lnot".toList "¬".toList
    (show MacShape ('\\' :: "lor".toList) from ⟨"lor".toList, rfl, by decide⟩)
    (by decide) (by decide) _]
  rw [replOne_macro_skip "land".toList "∧".toList
    (show MacShape ('\\' :: "lor".toList) from ⟨"lor".toList, rfl, by decide⟩)
    (by decide) (by decide) _]
  rw [replOne_match]
  rw [replOne_noslash "to".toList "→".toList "∨".toList (by decide)]
  rfl

theorem replace5_mac_to (s : List Char) :
    replace5 (('\\' :: "to".toList) ++ s) = '→' :: replace5 s := by
  unfold replace5
  rw [replOne_macro_skip "perp".toList "⊥".toList
    (show MacShape ('\\' :: "to".toList) from ⟨"to".toList, rfl, by decide⟩)
    (by decide) (by decide) s]
  rw [replOne_macro_skip "lnot".toList "¬".toList
    (show MacShape ('\\' :: "to".toList) from ⟨"to".toList, rfl, by decide⟩)
    (by decide) (by decide) _]
  rw [replOne_macro_skip "land".toList "∧".toList
    (show MacShape ('\\' :: "to".toList) from ⟨"to".toList, rfl, by decide⟩)
    (by decide) (by decide) _]
  rw [replOne_macro_skip "lor".toList "∨".toList
    (show MacShape ('\\' :: "to".toList) from ⟨"to".toList, rfl, by decide⟩)
    (by decide) (by decide) _]
  rw [replOne_match]
  rfl

theorem replace5_rparen : replace5 (")".toList) = ")".toList := by
  show replace5 (')' :: []) = ')' :: []
  rw [replace5_cons_ne (by decide), replace5_nil]

theorem replace5_sep_land (s : List Char) :
    replace5 (" \\land ".toList ++ s) = " ∧ ".toList ++ replace5 s := by
  show replace5 (' ' :: (('\\' :: "land".toList) ++ (' ' :: s))) =
    ' ' :: '∧' :: ' ' :: replace5 s
  rw [replace5_cons_ne (by decide), replace5_mac_land,
    replace5_cons_ne (by decide)]

theorem replace5_sep_lor (s : List Char) :
    replace5 (" \\lor ".toList ++ s) = " ∨ ".toList ++ replace5 s := by
  show replace5 (' ' :: (('\\' :: "lor".toList) ++ (' ' :: s))) =
    ' ' :: '∨' :: ' ' :: replace5 s
  rw [replace5_cons_ne (by decide), replace5_mac_lor,
    replace5_cons_ne (by decide)]

theorem replace5_sep_to (s : List Char) :
    replace5 (" \\to ".toList ++ s) = " → ".toList ++ replace5 s := by
  show replace5 (' ' :: (('\\' :: "to".toList) ++ (' ' :: s))) =
    ' ' :: '→' :: ' ' :: replace5 s
  rw [replace5_cons_ne (by decide), replace5_mac_to,
    replace5_cons_ne (by decide)]

theorem goodFor_wrap {x : List Char} (hx : GoodFor ms5 x) :
    GoodFor ms5 ("(".toList ++ x ++ ")".toList) := by
  show GoodFor ms5 ('(' :: (x ++ (')' :: [])))
  exact GoodFor.chr (by decide)
    (GoodFor.append hx (GoodFor.chr (by decide) GoodFor.nil))

theorem goodFor_mac_nil (m : List Char) (hm : m ∈ ms5) :
    GoodFor ms5 (m ++ []) := GoodFor.mac hm GoodFor.nil

theorem goodFor_lnot_sp (x : List Char) (hx : GoodFor ms5 x) :
    GoodFor ms5 ("\\lnot".toList ++ (' ' :: x)) :=
  GoodFor.mac (by decide) (GoodFor.chr (by decide) hx)

theorem goodFor_lnot_par (x : List Char) (hx : GoodFor ms5 x) :
    GoodFor ms5 ("\\lnot".toList ++ (' ' :: '(' :: (x ++ (')' :: [])))) :=
  GoodFor.mac (by decide) (GoodFor.chr (by decide) (GoodFor.chr (by decide)
    (GoodFor.append hx (GoodFor.chr (by decide) GoodFor.nil))))

theorem goodFor_sepOnly (m : List Char) (hm : m ∈ ms5) :
    GoodFor ms5 (' ' :: (m ++ (' ' :: []))) :=
  GoodFor.chr (by decide) (GoodFor.mac hm (GoodFor.chr (by decide) GoodFor.nil))

/-- The left/right operand of `And`/`Or` as rendered by `Logic::tex`:
parenthesised unless low precedence. -/
def texWrapLow (x : Logic) : List Char :=
  if x.is_low then Logic.texL x else "(".toList ++ Logic.texL x ++ ")".toList

/-- The operand of `To` as rendered by `Logic::tex`: parenthesised exactly
when it is itself a `To`. -/
def texWrapTo (x : Logic) : List Char :=
  match x with
  | .To _ _ => "(".toList ++ Logic.texL x ++ ")".toList
  | _ => Logic.texL x

theorem texL_and_eq (l r : Logic) :
    Logic.texL (.And l r) =
      texWrapLow l ++ " \\land ".toList ++ texWrapLow r := rfl

theorem texL_or_eq (l r : Logic) :
    Logic.texL (.Or l r) =
      texWrapLow l ++ " \\lor ".toList ++ texWrapLow r := rfl

theorem texL_to_eq (l r : Logic) :
    Logic.texL (.To l r) =
      texWrapTo l ++ " \\to ".toList ++ texWrapTo r := by
  cases l <;> cases r <;> rfl

/-- The TeX rendering of a formula whose atoms avoid the backslash is built
from plain characters and whole macros. -/
theorem texL_goodFor (f : Logic) (hf : ∀ c ∈ Logic.baseS f, c ≠ '\\') :
    GoodFor ms5 (Logic.texL f) := by
  induction f with
  | Base c =>
    show GoodFor ms5 (c :: [])
    exact GoodFor.chr (hf c (by simp [Logic.baseS])) GoodFor.nil
  | Cont => exact goodFor_mac_nil "\\perp".toList (by decide)
  | Not g ih =>
    have ihg := ih (fun c hc => hf c (by simpa [Logic.baseS] using hc))
    cases hlow : g.is_low
    · simp only [Logic.texL, hlow, Bool.false_eq_true, if_false]
      exact goodFor_lnot_par _ ihg
    · simp only [Logic.texL, hlow, if_true]
      exact goodFor_lnot_sp _ ihg
  | And l r ihl ihr =>
    have gl := ihl (fun c hc => hf c (by simp [Logic.baseS, hc]))
    have gr := ihr (fun c hc => hf c (by simp [Logic.baseS, hc]))
    have wl : GoodFor ms5 (texWrapLow l) := by
      unfold texWrapLow
      cases hlow : l.is_low
      · simpa using goodFor_wrap gl
      · simpa using gl
    have wr : GoodFor ms5 (texWrapLow r) := by
      unfold texWrapLow
      cases hlow : r.is_low
      · simpa using goodFor_wrap gr
      · simpa using gr
    rw [texL_and_eq]
    exact GoodFor.append
      (GoodFor.append wl (goodFor_sepOnly "\\land".toList (by decide))) wr
  | Or l r ihl ihr =>
    have gl := ihl (fun c hc => hf c (by simp [Logic.baseS, hc]))
    have gr := ihr (fun c hc => hf c (by simp [Logic.baseS, hc]))
    have wl : GoodFor ms5 (texWrapLow l) := by
      unfold texWrapLow
      cases hlow : l.is_low
      · simpa using goodFor_wrap gl
      · simpa using gl
    have wr : GoodFor ms5 (texWrapLow r) := by
      unfold texWrapLow
      cases hlow : r.is_low
      · simpa using goodFor_wrap gr
      · simpa using gr
    rw [texL_or_eq]
    exact GoodFor.append
      (GoodFor.append wl (goodFor_sepOnly "\\lor".toList (by decide))) wr
  | To l r ihl ihr =>
    have gl := ihl (fun c hc => hf c (by simp [Logic.baseS, hc]))
    have gr := ihr (fun c hc => hf c (by simp [Logic.baseS, hc]))
    have wl : GoodFor ms5 (texWrapTo l) := by
      unfold texWrapTo
      cases l <;> first | exact goodFor_wrap gl | exact gl
    have wr : GoodFor ms5 (texWrapTo r) := by
      unfold texWrapTo
      cases r <;> first | exact goodFor_wrap gr | exact gr
    rw [texL_to_eq]
    exact GoodFor.append
      (GoodFor.append wl (goodFor_sepOnly "\\to".toList (by decide))) wr

/-- The unicode console rendering described by the implicit claim: the same
structure as `Logic::tex`, with `⊥ ¬ ∧ ∨ →` in place of the five macros. -/
def uniL : Logic → List Char
  | .Base c => [c]
  | .Cont => "⊥".toList
  | .Not g =>
    if g.is_low then "¬ ".toList ++ uniL g
    else "¬ (".toList ++ uniL g ++ ")".toList
  | .And l r =>
    (if l.is_low then uniL l else "(".toList ++ uniL l ++ ")".toList) ++
      " ∧ ".toList ++
      (if r.is_low then uniL r else "(".toList ++ uniL r ++ ")".toList)
  | .Or l r =>
    (if l.is_low then uniL l else "(".toList ++ uniL l ++ ")".toList) ++
      " ∨ ".toList ++
      (if r.is_low then uniL r else "(".toList ++ uniL r ++ ")".toList)
  | .To l r =>
    (match l with
      | .To _ _ => "(".toList ++ uniL l ++ ")".toList
      | _ => uniL l) ++
      " → ".toList ++
      (match r with
        | .To _ _ => "(".toList ++ uniL r ++ ")".toList
        | _ => uniL r)

def uniWrapLow (x : Logic) : List Char :=
  if x.is_low then uniL x else "(".toList ++ uniL x ++ ")".toList

def uniWrapTo (x : Logic) : List Char :=
  match x with
  | .To _ _ => "(".toList ++ uniL x ++ ")".toList
  | _ => uniL x

theorem uniL_and_eq (l r : Logic) :
    uniL (.And l r) = uniWrapLow l ++ " ∧ ".toList ++ uniWrapLow r := rfl

theorem uniL_or_eq (l r : Logic) :
    uniL (.Or l r) = uniWrapLow l ++ " ∨ ".toList ++ uniWrapLow r := rfl

theorem uniL_to_eq (l r : Logic) :
    uniL (.To l r) = uniWrapTo l ++ " → ".toList ++ uniWrapTo r := by
  cases l <;> cases r <;> rfl

theorem replace5_paren (x y : List Char) (hx : GoodFor ms5 x)
    (ih : replace5 x = y) :
    replace5 ("(".toList ++ x ++ ")".toList) =
      "(".toList ++ y ++ ")".toList := by
  rw [List.append_assoc]
  show replace5 ('(' :: (x ++ ")".toList)) = _
  rw [replace5_cons_ne (by decide), replace5_append hx, replace5_rparen, ih,
    List.append_assoc]
  rfl

/-- The five string replacements of `impl Display for Logic` turn the TeX
rendering into the structural unicode rendering, provided no atom is the
backslash character. -/
theorem replace5_texL (f : Logic) (hf : ∀ c ∈ Logic.baseS f, c ≠ '\\') :
    replace5 (Logic.texL f) = uniL f := by
  induction f with
  | Base c =>
    show replace5 (c :: []) = [c]
    rw [replace5_cons_ne (hf c (by simp [Logic.baseS])), replace5_nil]
  | Cont =>
    show replace5 (('\\' :: "perp".toList) ++ []) = "⊥".toList
    rw [replace5_mac_perp, replace5_nil]
    rfl
  | Not g ih =>
    have hfg : ∀ c ∈ Logic.baseS g, c ≠ '\\' :=
      fun c hc => hf c (by simpa [Logic.baseS] using hc)
    have ihg := ih hfg
    cases hlow : g.is_low
    · simp only [Logic.texL, uniL, hlow, Bool.false_eq_true, if_false]
      rw [List.append_assoc]
      show replace5 (('\\' :: "lnot".toList) ++
        (' ' :: '(' :: (Logic.texL g ++ ")".toList))) = _
      rw [replace5_mac_lnot, replace5_cons_ne (by decide),
        replace5_cons_ne (by decide), replace5_append (texL_goodFor g hfg),
        replace5_rparen, ihg, List.append_assoc]
      rfl
    · simp only [Logic.texL, uniL, hlow, if_true]
      show replace5 (('\\' :: "lnot".toList) ++ (' ' :: Logic.texL g)) = _
      rw [replace5_mac_lnot, replace5_cons_ne (by decide), ihg]
      rfl
  | And l r ihl ihr =>
    have hfl : ∀ c ∈ Logic.baseS l, c ≠ '\\' :=
      fun c hc => hf c (by simp [Logic.baseS, hc])
    have hfr : ∀ c ∈ Logic.baseS r, c ≠ '\\' :=
      fun c hc => hf c (by simp [Logic.baseS, hc])
    have wl : GoodFor ms5 (texWrapLow l) := by
      unfold texWrapLow
      cases hlow : l.is_low
      · simpa using goodFor_wrap (texL_goodFor l hfl)
      · simpa using texL_goodFor l hfl
    have vl : replace5 (texWrapLow l) = uniWrapLow l := by
      unfold texWrapLow uniWrapLow
      cases hlow : l.is_low
      · simpa using replace5_paren _ _ (texL_goodFor l hfl) (ihl hfl)
      · simpa using ihl hfl
    have vr : replace5 (texWrapLow r) = uniWrapLow r := by
      unfold texWrapLow uniWrapLow
      cases hlow : r.is_low
      · simpa using replace5_paren _ _ (texL_goodFor r hfr) (ihr hfr)
      · simpa using ihr hfr
    rw [texL_and_eq, uniL_and_eq, List.append_assoc, List.append_assoc,
      replace5_append wl, replace5_sep_land, vl, vr]
  | Or l r ihl ihr =>
    have hfl : ∀ c ∈ Logic.baseS l, c ≠ '\\' :=
      fun c hc => hf c (by simp [Logic.baseS, hc])
    have hfr : ∀ c ∈ Logic.baseS r, c ≠ '\\' :=
      fun c hc => hf c (by simp [Logic.baseS, hc])
    have wl : GoodFor ms5 (texWrapLow l) := by
      unfold texWrapLow
      cases hlow : l.is_low
      · simpa using goodFor_wrap (texL_goodFor l hfl)
      · simpa using texL_goodFor l hfl
    have vl : replace5 (texWrapLow l) = uniWrapLow l := by
      unfold texWrapLow uniWrapLow
      cases hlow : l.is_low
      · simpa using replace5_paren _ _ (texL_goodFor l hfl) (ihl hfl)
      · simpa using ihl hfl
    have vr : replace5 (texWrapLow r) = uniWrapLow r := by
      unfold texWrapLow uniWrapLow
      cases hlow : r.is_low
      · simpa using replace5_paren _ _ (texL_goodFor r hfr) (ihr hfr)
      · simpa using ihr hfr
    rw [texL_or_eq, uniL_or_eq, List.append_assoc, List.append_assoc,
      replace5_append wl, replace5_sep_lor, vl, vr]
  | To l r ihl ihr =>
    have hfl : ∀ c ∈ Logic.baseS l, c ≠ '\\' :=
      fun c hc => hf c (by simp [Logic.baseS, hc])
    have hfr : ∀ c ∈ Logic.baseS r, c ≠ '\\' :=
      fun c hc => hf c (by simp [Logic.baseS, hc])
    have wl : GoodFor ms5 (texWrapTo l) := by
      unfold texWrapTo
      cases l <;>
        first
          | exact goodFor_wrap (texL_goodFor _ hfl)
          | exact texL_goodFor _ hfl
    have vl : replace5 (texWrapTo l) = uniWrapTo l := by
      unfold texWrapTo uniWrapTo
      cases l <;>
        first
          | exact replace5_paren _ _ (texL_goodFor _ hfl) (ihl hfl)
          | exact ihl hfl
    have vr : replace5 (texWrapTo r) = uniWrapTo r := by
      unfold texWrapTo uniWrapTo
      cases r <;>
        first
          | exact replace5_paren _ _ (texL_goodFor _ hfr) (ihr hfr)
          | exact ihr hfr
    rw [texL_to_eq, uniL_to_eq, List.append_assoc, List.append_assoc,
      replace5_append wl, replace5_sep_to, vl, vr]

/-! ### The two proof-tree renderers: `Inference::print` and
`Inference::print_tex`

At print time the only remaining weak references to a node's marker are
those held by the `Axiom` leaves of the finished tree (the transient
`Problem`s and their assumption maps have been dropped), so
`Rc::weak_count(&self.marker) > 0` is: some `Axiom` leaf of the tree
references this marker's identifier.  The `RefCell` contents become an
explicit cell store `σ : Nat → Nat`, and the `&mut usize` counter `after`
is threaded through the traversal together with `σ`. -/

/-- The number of `Axiom` leaves of the tree whose weak reference targets
the marker with identifier `id`: `Rc::weak_count` of that marker once only
the finished tree holds references. -/
def weakCount : Inference → Nat → Nat
  | .axm _ _ _ r, id => if r = id then 1 else 0
  | .unary _ _ _ c0, id => weakCount c0 id
  | .binary _ _ _ c0 c1, id => weakCount c0 id + weakCount c1 id
  | .trinary _ _ _ c0 c1 c2, id =>
    weakCount c0 id + weakCount c1 id + weakCount c2 id

/-- Marker liveness at print time: `Rc::weak_count(&self.marker) > 0`. -/
def liveOf (t : Inference) : Nat → Bool :=
  fun id => decide (0 < weakCount t id)

/-- The marker-stamping step both `Inference::print` and
`Inference::print_tex` perform first at every node: if the node's marker is
live, draw the next integer (`*after += 1`) and store it in the marker cell
(`self.marker.replace(*after)`). -/
def stamp (wc : Nat → Bool) (k after : Nat) (σ : Nat → Nat) :
    Nat × (Nat → Nat) :=
  if wc k then (after + 1, fun x => if x = k then after + 1 else σ x)
  else (after, σ)

/-- `Inference::print` of `src/solver.rs`, the ASCII renderer behind
`Display for Inference`.  The emitted text is the first component; the
mutable counter and marker cells are threaded as the second.  A live node
is labelled `" : N"` with its fresh number; a dead `Axiom` leaf is
labelled `" from: M"` with the current value of the referenced marker's
cell; each child is preceded by `indent ++ "+ "` and rendered under
`indent ++ "| "` (not last) or `indent ++ "  "` (last). -/
def printA (wc : Nat → Bool) : Inference → List Char → Nat → (Nat → Nat) →
    List Char × Nat × (Nat → Nat)
  | .axm l _ k r, _, after, σ =>
    let st := stamp wc k after σ
    let ms := if wc k then (" : " ++ toString st.1).toList
      else (" from: " ++ toString (σ r)).toList
    (displayL l ++ ms ++ ['\n'], st)
  | .unary l _ k c0, indent, after, σ =>
    let st := stamp wc k after σ
    let ms := if wc k then (" : " ++ toString st.1).toList else []
    let r0 := printA wc c0 (indent ++ "  ".toList) st.1 st.2
    (displayL l ++ ms ++ ['\n'] ++ indent ++ "+ ".toList ++ r0.1, r0.2)
  | .binary l _ k c0 c1, indent, after, σ =>
    let st := stamp wc k after σ
    let ms := if wc k then (" : " ++ toString st.1).toList else []
    let r0 := printA wc c0 (indent ++ "| ".toList) st.1 st.2
    let r1 := printA wc c1 (indent ++ "  ".toList) r0.2.1 r0.2.2
    (displayL l ++ ms ++ ['\n'] ++ indent ++ "+ ".toList ++ r0.1
      ++ indent ++ "+ ".toList ++ r1.1, r1.2)
  | .trinary l _ k c0 c1 c2, indent, after, σ =>
    let st := stamp wc k after σ
    let ms := if wc k then (" : " ++ toString st.1).toList else []
    let r0 := printA wc c0 (indent ++ "| ".toList) st.1 st.2
    let r1 := printA wc c1 (indent ++ "| ".toList) r0.2.1 r0.2.2
    let r2 := printA wc c2 (indent ++ "  ".toList) r1.2.1 r1.2.2
    (displayL l ++ ms ++ ['\n'] ++ indent ++ "+ ".toList ++ r0.1
      ++ indent ++ "+ ".toList ++ r1.1
      ++ indent ++ "+ ".toList ++ r2.1, r2.2)

/-- `Inference::print_tex` of `src/solver.rs`, the renderer behind
`TeX for Inference`.  An `Axiom` leaf becomes
`indent ++ "[" ++ tex ++ "]_\x7bM\x7d"` with `M` the referenced marker
cell's value (read after the stamping step); an inner node becomes
`indent ++ "\infer" ++ mk ++ "\x7btex\x7d\x7b"`, its children at
`indent ++ "  "` separated by `indent ++ "  &"` lines, and a closing
`indent ++ "\x7d"` line, where `mk` is `"[N]"` if the node is live and
empty otherwise. -/
def printT (wc : Nat → Bool) : Inference → List Char → Nat → (Nat → Nat) →
    List Char × Nat × (Nat → Nat)
  | .axm l _ k r, indent, after, σ =>
    let st := stamp wc k after σ
    (indent ++ "[".toList ++ Logic.texL l ++ "]_\x7b".toList
      ++ (toString (st.2 r)).toList ++ "\x7d\n".toList, st)
  | .unary l _ k c0, indent, after, σ =>
    let st := stamp wc k after σ
    let mk := if wc k then ("[" ++ toString st.1 ++ "]").toList else []
    let r0 := printT wc c0 (indent ++ "  ".toList) st.1 st.2
    (indent ++ "\\infer".toList ++ mk ++ "\x7b".toList ++ Logic.texL l
      ++ "\x7d\x7b\n".toList ++ r0.1 ++ indent ++ "\x7d\n".toList, r0.2)
  | .binary l _ k c0 c1, indent, after, σ =>
    let st := stamp wc k after σ
    let mk := if wc k then ("[" ++ toString st.1 ++ "]").toList else []
    let r0 := printT wc c0 (indent ++ "  ".toList) st.1 st.2
    let r1 := printT wc c1 (indent ++ "  ".toList) r0.2.1 r0.2.2
    (indent ++ "\\infer".toList ++ mk ++ "\x7b".toList ++ Logic.texL l
      ++ "\x7d\x7b\n".toList ++ r0.1 ++ indent ++ "  &\n".toList ++ r1.1
      ++ indent ++ "\x7d\n".toList, r1.2)
  | .trinary l _ k c0 c1 c2, indent, after, σ =>
    let st := stamp wc k after σ
    let mk := if wc k then ("[" ++ toString st.1 ++ "]").toList else []
    let r0 := printT wc c0 (indent ++ "  ".toList) st.1 st.2
    let r1 := printT wc c1 (indent ++ "  ".toList) r0.2.1 r0.2.2
    let r2 := printT wc c2 (indent ++ "  ".toList) r1.2.1 r1.2.2
    (indent ++ "\\infer".toList ++ mk ++ "\x7b".toList ++ Logic.texL l
      ++ "\x7d\x7b\n".toList ++ r0.1 ++ indent ++ "  &\n".toList ++ r1.1
      ++ indent ++ "  &\n".toList ++ r2.1
      ++ indent ++ "\x7d\n".toList, r2.2)

/-- `Display for Inference`: `print` from an empty indent, counter `0` and
zeroed marker cells. -/
def renderA (t : Inference) : List Char :=
  (printA (liveOf t) t [] 0 (fun _ => 0)).1

/-- `TeX for Inference`: `print_tex` from an empty indent, counter `0` and
zeroed marker cells. -/
def renderTex (t : Inference) : List Char :=
  (printT (liveOf t) t [] 0 (fun _ => 0)).1

/-- The numbering side effect the two renderers share: stamp each live
marker with the next integer, in preorder. -/
def numPass (wc : Nat → Bool) : Inference → Nat → (Nat → Nat) →
    Nat × (Nat → Nat)
  | .axm _ _ k _, after, σ => stamp wc k after σ
  | .unary _ _ k c0, after, σ =>
    let st := stamp wc k after σ
    numPass wc c0 st.1 st.2
  | .binary _ _ k c0 c1, after, σ =>
    let st := stamp wc k after σ
    let r0 := numPass wc c0 st.1 st.2
    numPass wc c1 r0.1 r0.2
  | .trinary _ _ k c0 c1 c2, after, σ =>
    let st := stamp wc k after σ
    let r0 := numPass wc c0 st.1 st.2
    let r1 := numPass wc c1 r0.1 r0.2
    numPass wc c2 r1.1 r1.2

/-- The state the ASCII renderer threads is exactly the shared numbering
pass. -/
theorem printA_snd (wc : Nat → Bool) (i : Inference) :
    ∀ indent after σ, (printA wc i indent after σ).2 = numPass wc i after σ := by
  induction i with
  | axm l a k r => intro indent after σ; rfl
  | unary l a k c0 ih =>
    intro indent after σ
    simp only [printA, numPass, ih]
  | binary l a k c0 c1 ih0 ih1 =>
    intro indent after σ
    simp only [printA, numPass, ih0, ih1]
  | trinary l a k c0 c1 c2 ih0 ih1 ih2 =>
    intro indent after σ
    simp only [printA, numPass, ih0, ih1, ih2]

/-- The state the TeX renderer threads is exactly the shared numbering
pass. -/
theorem printT_snd (wc : Nat → Bool) (i : Inference) :
    ∀ indent after σ, (printT wc i indent after σ).2 = numPass wc i after σ := by
  induction i with
  | axm l a k r => intro indent after σ; rfl
  | unary l a k c0 ih =>
    intro indent after σ
    simp only [printT, numPass, ih]
  | binary l a k c0 c1 ih0 ih1 =>
    intro indent after σ
    simp only [printT, numPass, ih0, ih1]
  | trinary l a k c0 c1 c2 ih0 ih1 ih2 =>
    intro indent after σ
    simp only [printT, numPass, ih0, ih1, ih2]

/-- A marker the liveness test rejects is never stamped: its cell keeps its
initial value through the whole pass. -/
theorem numPass_dead (wc : Nat → Bool) (id : Nat) (hdead : wc id = false)
    (i : Inference) :
    ∀ after σ, ((numPass wc i after σ).2) id = σ id := by
  have hst : ∀ k after σ, ((stamp wc k after σ).2) id = σ id := by
    intro k after σ
    unfold stamp
    by_cases hk : wc k
    · have : ¬ id = k := by
        intro he
        rw [he] at hdead
        rw [hdead] at hk
        exact Bool.false_ne_true hk
      simp [hk, this]
    · simp [hk]
  induction i with
  | axm l a k r => intro after σ; exact hst k after σ
  | unary l a k c0 ih =>
    intro after σ
    simp only [numPass, ih, hst]
  | binary l a k c0 c1 ih0 ih1 =>
    intro after σ
    simp only [numPass, ih0, ih1, hst]
  | trinary l a k c0 c1 c2 ih0 ih1 ih2 =>
    intro after σ
    simp only [numPass, ih0, ih1, ih2, hst]

/-! ### Concrete solver runs and tree checkers -/

/-- The proof tree of a successful solver run, if any. -/
def okTree : SolveM → Option Inference
  | some (.ok i, _) => some i
  | _ => none

/-- Whether `pat` occurs as a contiguous substring. -/
def hasSub (pat : List Char) : List Char → Bool
  | [] => pat.isEmpty
  | c :: rest => leadsWith pat (c :: rest) || hasSub pat rest

/-- Whether the tree has an `Axiom` leaf (every solver output does). -/
def hasAxLeaf : Inference → Bool
  | .axm .. => true
  | .unary _ _ _ c0 => hasAxLeaf c0
  | .binary _ _ _ c0 c1 => hasAxLeaf c0 || hasAxLeaf c1
  | .trinary _ _ _ c0 c1 c2 => hasAxLeaf c0 || hasAxLeaf c1 || hasAxLeaf c2

/-- Whether some `trinary` (∨-elimination) node of the tree violates the
rule contract: its second or third child does not conclude the node's own
conclusion. -/
def hasBadTrinary : Inference → Bool
  | .axm .. => false
  | .unary _ _ _ c0 => hasBadTrinary c0
  | .binary _ _ _ c0 c1 => hasBadTrinary c0 || hasBadTrinary c1
  | .trinary l _ _ c0 c1 c2 =>
    (c1.logic != l) || (c2.logic != l) ||
      hasBadTrinary c0 || hasBadTrinary c1 || hasBadTrinary c2

/-- The formula `(A ∨ A) → A`. -/
def g1 : Logic := .To (.Or (.Base 'A') (.Base 'A')) (.Base 'A')

/-- The tree the solver returns on `g1` (insertion order, fuel 64): the
∨-elimination node concludes `A` but all three of its children conclude
`A ∨ A`. -/
def t1 : Inference :=
  .unary g1 [] 0
    (.trinary (.Base 'A') [(.Or (.Base 'A') (.Base 'A'), 0)] 1
      (.axm (.Or (.Base 'A') (.Base 'A')) [(.Or (.Base 'A') (.Base 'A'), 0)] 2 0)
      (.axm (.Or (.Base 'A') (.Base 'A'))
        [(.Or (.Base 'A') (.Base 'A'), 0), (.Base 'A', 2)] 5 0)
      (.axm (.Or (.Base 'A') (.Base 'A'))
        [(.Or (.Base 'A') (.Base 'A'), 0), (.Base 'A', 2)] 6 0))

/-- The formula `(B ∧ A) → ((C ∧ A) → A)`. -/
def g3 : Logic :=
  .To (.And (.Base 'B') (.Base 'A'))
    (.To (.And (.Base 'C') (.Base 'A')) (.Base 'A'))

/-- The tree the solver returns on `g3` when the assumption map is iterated
in insertion order: the axiom used is `B ∧ A`. -/
def t3I : Inference :=
  .unary g3 [] 0
    (.unary (.To (.And (.Base 'C') (.Base 'A')) (.Base 'A'))
      [(.And (.Base 'B') (.Base 'A'), 0)] 1
      (.unary (.Base 'A')
        [(.And (.Base 'B') (.Base 'A'), 0), (.And (.Base 'C') (.Base 'A'), 1)] 8
        (.axm (.And (.Base 'B') (.Base 'A'))
          [(.And (.Base 'B') (.Base 'A'), 0),
            (.And (.Base 'C') (.Base 'A'), 1)] 6 0)))

/-- The tree the solver returns on `g3` when the assumption map is iterated
in reversed insertion order: the axiom used is `C ∧ A`. -/
def t3R : Inference :=
  .unary g3 [] 0
    (.unary (.To (.And (.Base 'C') (.Base 'A')) (.Base 'A'))
      [(.And (.Base 'B') (.Base 'A'), 0)] 1
      (.unary (.Base 'A')
        [(.And (.Base 'B') (.Base 'A'), 0), (.And (.Base 'C') (.Base 'A'), 1)] 8
        (.axm (.And (.Base 'C') (.Base 'A'))
          [(.And (.Base 'B') (.Base 'A'), 0),
            (.And (.Base 'C') (.Base 'A'), 1)] 6 1)))

/-- The formula `A → (A → A)`, whose search inserts the assumption `A`
twice. -/
def g4 : Logic := .To (.Base 'A') (.To (.Base 'A') (.Base 'A'))

/-- The tree the solver returns on `g4` (fuel 32): the inner introduction
silently overwrote the binding `A ↦ 0` with `A ↦ 1`, and the axiom leaf
discharges against marker `1`. -/
def t4 : Inference :=
  .unary g4 [] 0
    (.unary (.To (.Base 'A') (.Base 'A')) [(.Base 'A', 0)] 1
      (.axm (.Base 'A') [(.Base 'A', 1)] 4 1))

/-- The formula `A → A`. -/
def g8 : Logic := .To (.Base 'A') (.Base 'A')

/-- The tree the solver returns on `g8` (fuel 32). -/
def t8 : Inference :=
  .unary g8 [] 0 (.axm (.Base 'A') [(.Base 'A', 0)] 2 0)

/-- A tree exercising all four node shapes; the markers referenced by its
`Axiom` leaves are `0`, `2` and `9`, so marker `4` is dead. -/
def t9 : Inference :=
  .binary (.Base 'G') [] 0
    (.axm (.Base 'P') [] 1 0)
    (.trinary (.Base 'Q') [] 2
      (.axm (.Base 'R') [] 3 2)
      (.unary (.Base 'S') [] 4 (.axm (.Base 'T') [] 5 9))
      (.axm (.Base 'U') [] 6 2))

/-- The formula `P ∧ (Q ∨ ¬R)`. -/
def f10 : Logic := .And (.Base 'P') (.Or (.Base 'Q') (.Not (.Base 'R')))

/-! ### The TeX format as the (amended) format claim words it -/

/-- Child blocks joined with a separator line between consecutive blocks. -/
def joinSep (sep : List Char) : List (List Char) → List Char
  | [] => []
  | [x] => x
  | x :: y :: rest => x ++ sep ++ joinSep sep (y :: rest)

/-- The header line of an inner node: the indent, `\infer`, the optional
`[N]` marker label, and the conclusion's TeX in braces followed by the
opening brace of the child list. -/
def inferHead (indent mk tex : List Char) : List Char :=
  indent ++ "\\infer".toList ++ mk ++ "\x7b".toList ++ tex ++ "\x7d\x7b\n".toList

/-- The closing line of an inner node: the indent and a closing brace. -/
def inferClose (indent : List Char) : List Char :=
  indent ++ "\x7d\n".toList

/-- The line of an `Axiom` leaf: the indent and `[<tex>]_\x7bM\x7d`. -/
def axmLine (indent tex : List Char) (v : Nat) : List Char :=
  indent ++ "[".toList ++ tex ++ "]_\x7b".toList ++ (toString v).toList
    ++ "\x7d\n".toList

/-- The TeX rendering as the corrected format claim describes it: an
`Axiom` leaf is one `[<tex>]_\x7bM\x7d` line; an inner node is an `\infer`
header, the children rendered two spaces deeper and joined by `indent  &`
separator lines, and a closing-brace line; a live node's header carries the
label `[N]` with its fresh number. -/
def printTexSpec (wc : Nat → Bool) : Inference → List Char → Nat →
    (Nat → Nat) → List Char × Nat × (Nat → Nat)
  | .axm l _ k r, indent, after, σ =>
    let st := stamp wc k after σ
    (axmLine indent (Logic.texL l) (st.2 r), st)
  | .unary l _ k c0, indent, after, σ =>
    let st := stamp wc k after σ
    let mk := if wc k then ("[" ++ toString st.1 ++ "]").toList else []
    let r0 := printTexSpec wc c0 (indent ++ "  ".toList) st.1 st.2
    (inferHead indent mk (Logic.texL l)
      ++ joinSep (indent ++ "  &\n".toList) [r0.1] ++ inferClose indent, r0.2)
  | .binary l _ k c0 c1, indent, after, σ =>
    let st := stamp wc k after σ
    let mk := if wc k then ("[" ++ toString st.1 ++ "]").toList else []
    let r0 := printTexSpec wc c0 (indent ++ "  ".toList) st.1 st.2
    let r1 := printTexSpec wc c1 (indent ++ "  ".toList) r0.2.1 r0.2.2
    (inferHead indent mk (Logic.texL l)
      ++ joinSep (indent ++ "  &\n".toList) [r0.1, r1.1]
      ++ inferClose indent, r1.2)
  | .trinary l _ k c0 c1 c2, indent, after, σ =>
    let st := stamp wc k after σ
    let mk := if wc k then ("[" ++ toString st.1 ++ "]").toList else []
    let r0 := printTexSpec wc c0 (indent ++ "  ".toList) st.1 st.2
    let r1 := printTexSpec wc c1 (indent ++ "  ".toList) r0.2.1 r0.2.2
    let r2 := printTexSpec wc c2 (indent ++ "  ".toList) r1.2.1 r1.2.2
    (inferHead indent mk (Logic.texL l)
      ++ joinSep (indent ++ "  &\n".toList) [r0.1, r1.1, r2.1]
      ++ inferClose indent, r2.2)

/-! ### The partial-evaluation rules as §4 of the spec words them -/

/-- `eval_partial` exactly as the spec states it, rule for rule, with each
case's conditions tested in the spec's stated order. -/
def eval_partSpec : Logic → Logic.Val → Option Logic
  | .Base c, m =>
    match m c with
    | some true => none
    | some false => some .Cont
    | none => some (.Base c)
  | .Cont, _ => some .Cont
  | .Not g, m =>
    let eg := eval_partSpec g m
    if eg = some .Cont then none
    else if eg = none then some .Cont
    else eg.map (fun g' => .Not g')
  | .And l r, m =>
    let el := eval_partSpec l m
    let er := eval_partSpec r m
    if el = some .Cont ∨ er = some .Cont then some .Cont
    else if el = none then er
    else if er = none then el
    else do
      let l' ← el
      let r' ← er
      pure (.And l' r')
  | .Or l r, m =>
    let el := eval_partSpec l m
    let er := eval_partSpec r m
    if el = none ∨ er = none then none
    else if el = some .Cont then er
    else if er = some .Cont then el
    else do
      let l' ← el
      let r' ← er
      pure (.Or l' r')
  | .To l r, m =>
    let el := eval_partSpec l m
    let er := eval_partSpec r m
    if el = some .Cont then none
    else if er = none then none
    else if el = none then er
    else if er = some .Cont then el.map (fun l' => .Not l')
    else do
      let l' ← el
      let r' ← er
      pure (.To l' r')

/-! ## The claims -/

/-- Claim C1: refuted (code bug).  On the goal `(A ∨ A) → A` the solver
succeeds, but the ∨-elimination (`trinary`) node of the returned tree
violates the claimed local rule contract: `use_or` re-solves the
disjunction `A ∨ A` itself instead of the goal `A` under the extended
contexts, so the node's second and third children conclude `A ∨ A`, not the
goal.  The tree is not locally derivable by one natural-deduction rule at
that node. -/
theorem claim_C1 :
    okTree (solveTopI 64 g1) = some t1 ∧
    Inference.logic t1 = g1 ∧
    hasBadTrinary t1 = true := by
  decide

/-- Claim C2: refuted (code bug).  There is no depth counter or
visited-pair set anywhere in `solve`: on `¬¬A → A` the classical-validity
gate passes, and the search then re-enters the subproblem `¬A ⊢ A`
through `use_axioms` → `use_logic` → `use_not` forever; for every fuel the
fueled embedding exhausts it, so no `InferenceFailed` answer is ever
returned. -/
theorem claim_C2 :
    Logic.check_all (.To (.Not (.Not (.Base 'A'))) (.Base 'A')) = .ok () ∧
    ∀ n : Nat, solveTopI n (.To (.Not (.Not (.Base 'A'))) (.Base 'A')) = none := by
  constructor
  · rw [Logic.check_all.eq_def]
    rfl
  · exact solveTopI_nnA_diverges

/-- Claim C3 (amended): proof search is a function of the goal *and* of the
unspecified `HashMap` iteration order of the assumption map, not of the
goal alone: on `(B ∧ A) → ((C ∧ A) → A)` the insertion-order run and the
reversed-order run both succeed with trees concluding the goal, but the
trees differ (they discharge different assumptions). -/
theorem claim_C3 :
    okTree (solveTopI 64 g3) = some t3I ∧
    okTree (solveTopR 64 g3) = some t3R ∧
    Inference.logic t3I = g3 ∧
    Inference.logic t3R = g3 ∧
    t3I ≠ t3R := by
  decide

/-- Claim C3, counterexample to the original determinism claim: two
legitimate iteration orders of the same input formula give different
results. -/
theorem claim_C3_cex :
    okTree (solveTopI 64 g3) ≠ okTree (solveTopR 64 g3) := by
  decide

/-- Claim C4 (amended): inserting an assumption formula that is already a
key of the context silently overwrites the existing key's marker
(`HashMap::insert` semantics), and the search succeeds rather than failing:
on `A → (A → A)`, whose two introductions insert the key `A` twice, the
solver returns a tree whose axiom leaf discharges against the overwriting
marker.  Moreover `SolveError` has exactly two variants — `InferError` and
`CheckError` — so no `InternalInvariant` failure kind exists. -/
theorem claim_C4 :
    (∀ (m : Ctx) (k : Logic) (v w : Nat),
      insertKV ((k, w) :: m) k v = (k, v) :: m) ∧
    (∀ e : SolveError,
      (∃ l, e = .InferError l) ∨ (∃ c, e = .CheckError c)) ∧
    okTree (solveTopI 32 g4) = some t4 := by
  refine ⟨?_, ?_, by decide⟩
  · intro m k v w
    simp [insertKV]
  · intro e
    cases e with
    | InferError l => exact Or.inl ⟨l, rfl⟩
    | CheckError c => exact Or.inr ⟨c, rfl⟩

/-- Claim C4, counterexample to the original duplicate-key-failure claim:
the duplicate insert overwrites in place and the solve on `A → (A → A)`
succeeds instead of failing with an `InternalInvariant` error. -/
theorem claim_C4_cex :
    insertKV [(.Base 'A', 0)] (.Base 'A') 1 = [(.Base 'A', 1)] ∧
    okTree (solveTopI 32 g4) = some t4 ∧
    Inference.logic t4 = g4 := by
  decide

/-- Claim C5 (amended): for a formula with at least one atom, `check_all`
succeeds iff every total truth assignment evaluates the formula to `none`
(true), and a `TurnsOutFalse` failure carries a valuation under which the
formula evaluates to `some Cont` (false); a formula without atoms is
instead rejected with `NoBase` even when it is valid, and the failure kind
is named `TurnsOutFalse`, not `NotClassicallyValid`. -/
theorem claim_C5 (f : Logic) :
    ((Logic.baseS f).Nonempty →
      (Logic.check_all f = .ok () ↔
        ∀ v : Char → Bool, Logic.eval_part f (fun x => some (v x)) = none)) ∧
    (∀ m, Logic.check_all f = .error (.TurnsOutFalse m) →
      Logic.eval_part f (Logic.mOf m) = some .Cont) ∧
    (Logic.baseS f = ∅ → Logic.check_all f = .error .NoBase) := by
  refine ⟨fun hne => ⟨fun hok v => Logic.check_all_ok_valid _ f rfl hok v,
    fun hval => Logic.check_all_valid_ok _ f rfl hne hval⟩,
    fun m herr => Logic.check_all_false_witness _ f rfl m herr,
    fun h => Logic.check_all_noBase h⟩

/-- Claim C5, counterexample to the original iff: the atom-free valid
formula `¬⊥` evaluates to `none` (true) under any valuation yet
`check_all` rejects it with `NoBase`; and the failing atom `A` is rejected
with `TurnsOutFalse [(A, false)]`, not a `NotClassicallyValid` error. -/
theorem claim_C5_cex :
    Logic.check_all (.Not .Cont) = .error .NoBase ∧
    Logic.baseS (.Not .Cont) = ∅ ∧
    Logic.eval_part (.Not .Cont) (fun _ => none) = none ∧
    Logic.check_all (.Base 'A') = .error (.TurnsOutFalse [('A', false)]) := by
  refine ⟨?_, by decide, rfl, ?_⟩
  · rw [Logic.check_all.eq_def]
    rfl
  · rw [Logic.check_all.eq_def]
    rfl

/-- Claim C6: confirmed.  `eval_part` follows the spec's case analysis
exactly: the source's match arms and the spec's ordered condition lists
compute the same function on every formula and every partial valuation. -/
theorem claim_C6 (f : Logic) (m : Logic.Val) :
    Logic.eval_part f m = eval_partSpec f m := by
  induction f with
  | Base c =>
    simp only [Logic.eval_part, eval_partSpec]
    cases m c with
    | none => rfl
    | some b => cases b <;> rfl
  | Cont => rfl
  | Not g ih =>
    rw [Logic.eval_part_not, ih]
    simp only [eval_partSpec]
    generalize eval_partSpec g m = a
    rcases a with _ | g' <;> try rfl
    cases g' <;> simp [Logic.notC]
  | And l r ihl ihr =>
    rw [Logic.eval_part_and, ihl, ihr]
    simp only [eval_partSpec]
    generalize eval_partSpec l m = a
    generalize eval_partSpec r m = b
    rcases a with _ | l' <;> rcases b with _ | r' <;> (try cases l') <;>
      (try cases r') <;> simp [Logic.andC]
  | Or l r ihl ihr =>
    rw [Logic.eval_part_or, ihl, ihr]
    simp only [eval_partSpec]
    generalize eval_partSpec l m = a
    generalize eval_partSpec r m = b
    rcases a with _ | l' <;> rcases b with _ | r' <;> (try cases l') <;>
      (try cases r') <;> simp [Logic.orC]
  | To l r ihl ihr =>
    rw [Logic.eval_part_to, ihl, ihr]
    simp only [eval_partSpec]
    generalize eval_partSpec l m = a
    generalize eval_partSpec r m = b
    rcases a with _ | l' <;> rcases b with _ | r' <;> (try cases l') <;>
      (try cases r') <;> simp [Logic.toC]

/-- Claim C7: refuted (code bug).  `use_to` and `use_not` recurse
unconditionally — the source has no `G ≠ l` or `G ≠ p` guard — and the
absence of the guard makes the composition loop: on `¬A → (A → B)` the
classical-validity gate passes, then extending the assumption `¬A` toward
the goal re-solves `A` under `{¬A}` forever, exhausting every fuel. -/
theorem claim_C7 :
    Logic.check_all (.To (.Not (.Base 'A')) (.To (.Base 'A') (.Base 'B'))) = .ok () ∧
    ∀ n : Nat,
      solveTopI n (.To (.Not (.Base 'A')) (.To (.Base 'A') (.Base 'B'))) = none := by
  constructor
  · rw [Logic.check_all.eq_def]
    rfl
  · exact solveTopI_nA_diverges

/-- Claim C8 (amended): the TeX renderer emits `\infer`-style markup, not
bussproofs: an `Axiom` leaf is one `[<tex>]_\x7bM\x7d` line, an inner node
is an `\infer` header carrying `[N]` exactly when the node's marker is
live, the children two spaces deeper joined by `&` separator lines, and a
closing brace line. -/
theorem claim_C8 (wc : Nat → Bool) (i : Inference) :
    ∀ indent after σ,
      printT wc i indent after σ = printTexSpec wc i indent after σ := by
  induction i with
  | axm l a k r =>
    intro indent after σ
    simp [printT, printTexSpec, axmLine, List.append_assoc]
  | unary l a k c0 ih =>
    intro indent after σ
    simp [printT, printTexSpec, inferHead, inferClose, joinSep, ih,
      List.append_assoc]
  | binary l a k c0 c1 ih0 ih1 =>
    intro indent after σ
    simp [printT, printTexSpec, inferHead, inferClose, joinSep, ih0, ih1,
      List.append_assoc]
  | trinary l a k c0 c1 c2 ih0 ih1 ih2 =>
    intro indent after σ
    simp [printT, printTexSpec, inferHead, inferClose, joinSep, ih0, ih1,
      ih2, List.append_assoc]

/-- Claim C8, counterexample to the bussproofs format claim: the tree the
solver returns on `A → A` has an `Axiom` leaf, yet its TeX rendering
contains no `\AxiomC` at all — it is the `\infer\x7b..\x7d\x7b..\x7d`
format. -/
theorem claim_C8_cex :
    okTree (solveTopI 32 g8) = some t8 ∧
    hasAxLeaf t8 = true ∧
    hasSub "\\AxiomC".toList (renderTex t8) = false ∧
    renderTex t8 =
      "\\infer[1]\x7bA \\to A\x7d\x7b\n  [A]_\x7b1\x7d\n\x7d\n".toList := by
  decide

/-- Claim C9: confirmed.  Both renderers stamp markers identically: for any
liveness test and any indents the ASCII and TeX traversals end in the same
counter and the same marker cells (so each live marker gets the same
number in both renderings), and a dead marker's cell is never written. -/
theorem claim_C9 (t : Inference) (id : Nat)
    (hdead : liveOf t id = false) :
    ((printA (liveOf t) t [] 0 (fun _ => 0)).2 =
      (printT (liveOf t) t [] 0 (fun _ => 0)).2) ∧
    ((printA (liveOf t) t [] 0 (fun _ => 0)).2.2) id = 0 := by
  constructor
  · rw [printA_snd, printT_snd]
  · rw [printA_snd]
    exact numPass_dead (liveOf t) id hdead t 0 (fun _ => 0)

/-- Claim C9, witness: the concrete tree `t9` with the dead marker `4`. -/
theorem claim_C9_witness :
    liveOf t9 4 = false ∧
    (((printA (liveOf t9) t9 [] 0 (fun _ => 0)).2 =
        (printT (liveOf t9) t9 [] 0 (fun _ => 0)).2) ∧
      ((printA (liveOf t9) t9 [] 0 (fun _ => 0)).2.2) 4 = 0) :=
  ⟨by decide, claim_C9 t9 4 (by decide)⟩

/-- Claim C10: confirmed.  For every formula whose atom labels avoid the
backslash character (every parsable formula does: atoms are uppercase
letters), the console rendering is exactly the TeX rendering with the five
macros `\perp`, `\lnot`, `\land`, `\lor`, `\to` replaced by `⊥`, `¬`,
`∧`, `∨`, `→`: both renderings have the same structure and
parenthesisation. -/
theorem claim_C10 (f : Logic) (hf : ∀ c ∈ Logic.baseS f, c ≠ '\\') :
    displayL f = uniL f := by
  rw [displayL]
  exact replace5_texL f hf

/-- Claim C10, witness: the concrete formula `P ∧ (Q ∨ ¬R)`. -/
theorem claim_C10_witness :
    (∀ c ∈ Logic.baseS f10, c ≠ '\\') ∧ displayL f10 = uniL f10 :=
  ⟨by decide, claim_C10 f10 (by decide)⟩

end PropLogic
